/-
Verification of the magentic-marketplace reference implementation.

This development shallowly embeds the marketplace's data model and the
operations under audit (message protocol, proposal/payment handling,
analytics, audit and database conversion) as executable Lean definitions,
translated from the Python sources, and proves the specified properties
about them.  Prices and utilities are modelled as rationals, machine
strings as Lean strings (lists of characters where character-level
computation matters).
-/
import Mathlib

namespace Marketplace

/-! ### Message data model (marketplace/actions/messaging.py) -/

/-- An item in an order with quantity and pricing (`OrderItem`). -/
structure OrderItem where
  id : String
  item_name : String
  quantity : Nat
  unit_price : ℚ
deriving DecidableEq, Repr

/-- Order proposal details sent by business agents to customers
(`OrderProposal`). -/
structure OrderProposal where
  id : String
  items : List OrderItem
  total_price : ℚ
  special_instructions : Option String := none
  estimated_delivery : Option String := none
  expiry_time : Option String := none
deriving DecidableEq, Repr

/-- A payment message accepting an order proposal (`Payment`). -/
structure Payment where
  proposal_message_id : String
  payment_method : Option String := none
  delivery_address : Option String := none
  payment_message : Option String := none
deriving DecidableEq, Repr

/-- A free-form text message (`TextMessage`). -/
structure TextMessage where
  content : String
deriving DecidableEq, Repr

/-- The tagged union `Message = TextMessage | OrderProposal | Payment`. -/
inductive Message where
  | text (m : TextMessage)
  | orderProposal (p : OrderProposal)
  | payment (p : Payment)
deriving DecidableEq, Repr

/-! ### Levenshtein distance (experiments/run_analytics.py, lines 165-205)

The Python implementation is a dynamic program over rows.  `levInner`
is the inner `for j, c2 in enumerate(s2)` loop building `current_row`
(`last` is the most recently appended cell `current_row[j]`), `levOuter`
is the outer `for i, c1 in enumerate(s1)` loop, and `levCompute` wires
up the initial row `range(len(s2)+1)` and extracts `previous_row[-1]`.
`levenshtein_distance` adds the initial swap so that `s1` is the longer
string, exactly as the source does. -/

/-- Inner loop of the DP: given the previous row (aligned so that its
head is `previous_row[j]`), the last cell written to the current row and
the remaining characters of `s2`, produce the rest of the current row. -/
def levInner (c1 : Char) : List Nat → Nat → List Char → List Nat
  | _, _, [] => []
  | prev, last, c2 :: cs =>
    let p0 := prev.headD 0
    let p1 := prev.tail.headD 0
    let v := min (p1 + 1) (min (last + 1) (p0 + (if c1 = c2 then 0 else 1)))
    v :: levInner c1 prev.tail v cs

/-- Outer loop of the DP: fold `levInner` over the characters of `s1`,
threading `previous_row`.  `i` is the 0-based index of the next
character of `s1`, so the freshly started row is `[i + 1]`. -/
def levOuter (s2 : List Char) : List Nat → Nat → List Char → List Nat
  | prev, _, [] => prev
  | prev, i, c1 :: cs => levOuter s2 ((i + 1) :: levInner c1 prev (i + 1) s2) (i + 1) cs

/-- `levenshtein_distance` after the initial swap: the early return for
an empty `s2` followed by the row DP, returning `previous_row[-1]`. -/
def levCompute (s1 s2 : List Char) : Nat :=
  if s2.length = 0 then s1.length
  else (levOuter s2 (List.range (s2.length + 1)) 0 s1).getLastD 0

/-- The embedded `levenshtein_distance(s1, s2)` from the source. -/
def levenshtein_distance (s1 s2 : List Char) : Nat :=
  if s1.length < s2.length then levCompute s2 s1 else levCompute s1 s2

/-! ### Specification-side edit distance

`editDistance` is the textbook recursion; `Edit` is a single character
insertion, deletion or substitution; `EditSeq n xs ys` says `ys` is
reachable from `xs` in exactly `n` single-character edits.  The minimum
`n` with `EditSeq n xs ys` is the standard Levenshtein distance. -/

/-- Substitution cost: `0` for equal characters, else `1`. -/
def editCost (a b : Char) : Nat := if a = b then 0 else 1

/-- Textbook recursive edit distance. -/
def editDistance : List Char → List Char → Nat
  | [], ys => ys.length
  | _ :: xs, [] => xs.length + 1
  | x :: xs, y :: ys =>
    min (editDistance xs (y :: ys) + 1)
      (min (editDistance (x :: xs) ys + 1) (editDistance xs ys + editCost x y))
termination_by xs ys => xs.length + ys.length
decreasing_by all_goals simp_arith

/-- One single-character edit step. -/
inductive Edit : List Char → List Char → Prop where
  | ins (l r : List Char) (c : Char) : Edit (l ++ r) (l ++ c :: r)
  | del (l r : List Char) (c : Char) : Edit (l ++ c :: r) (l ++ r)
  | subst (l r : List Char) (a b : Char) : Edit (l ++ a :: r) (l ++ b :: r)

/-- `EditSeq n xs ys`: `xs` is transformed into `ys` by exactly `n`
single-character edits. -/
inductive EditSeq : Nat → List Char → List Char → Prop where
  | refl (xs : List Char) : EditSeq 0 xs xs
  | step {n : Nat} {xs ys zs : List Char} :
      Edit xs ys → EditSeq n ys zs → EditSeq (n + 1) xs zs

/-! #### Basic facts about `editDistance` -/

theorem editDistance_nil_left (ys : List Char) : editDistance [] ys = ys.length := by
  simp [editDistance]

theorem editDistance_nil_right (xs : List Char) : editDistance xs [] = xs.length := by
  cases xs <;> simp [editDistance]

theorem editDistance_cons_cons (x y : Char) (xs ys : List Char) :
    editDistance (x :: xs) (y :: ys) =
      min (editDistance xs (y :: ys) + 1)
        (min (editDistance (x :: xs) ys + 1) (editDistance xs ys + editCost x y)) := by
  rw [editDistance]

theorem editCost_le_one (a b : Char) : editCost a b ≤ 1 := by
  unfold editCost; split <;> omega

theorem editDistance_self (xs : List Char) : editDistance xs xs = 0 := by
  induction xs with
  | nil => simp [editDistance_nil_left]
  | cons x t ih =>
    rw [editDistance_cons_cons]
    have h3 : editDistance t t + editCost x x = 0 := by simp [ih, editCost]
    omega

theorem editDistance_le_cons_right (xs : List Char) (y : Char) (ys : List Char) :
    editDistance xs (y :: ys) ≤ editDistance xs ys + 1 := by
  cases xs with
  | nil => simp [editDistance_nil_left]
  | cons x t =>
    rw [editDistance_cons_cons]
    exact le_trans (min_le_of_right_le (min_le_left _ _)) le_rfl

theorem editDistance_le_cons_left (x : Char) (xs ys : List Char) :
    editDistance (x :: xs) ys ≤ editDistance xs ys + 1 := by
  cases ys with
  | nil => simp [editDistance_nil_right]
  | cons y t =>
    rw [editDistance_cons_cons]
    exact min_le_left _ _

/-- Monotonicity of a 3-way minimum, up to one extra edit. -/
theorem min3_le_succ {a a' b b' c c' : Nat} (ha : a ≤ a' + 1) (hb : b ≤ b' + 1)
    (hc : c ≤ c' + 1) : min a (min b c) ≤ min a' (min b' c') + 1 := by
  have h : min a' (min b' c') + 1 = min (a' + 1) (min (b' + 1) (c' + 1)) := by
    rw [min_add_add_right, min_add_add_right]
  rw [h]
  exact le_min (le_trans (min_le_left _ _) ha)
    (le_min (le_trans (min_le_of_right_le (min_le_left _ _)) hb)
      (le_trans (min_le_of_right_le (min_le_right _ _)) hc))

theorem editDistance_ins_head (c : Char) (r : List Char) :
    ∀ zs, editDistance r zs ≤ editDistance (c :: r) zs + 1 := by
  intro zs
  induction zs with
  | nil => simp [editDistance_nil_right]; omega
  | cons z t ih =>
    rw [editDistance_cons_cons c z r t]
    have h1 : editDistance r (z :: t) ≤ (editDistance r (z :: t) + 1) + 1 := by omega
    have h2 : editDistance r (z :: t) ≤ (editDistance (c :: r) t + 1) + 1 := by
      have := editDistance_le_cons_right r z t
      omega
    have h3 : editDistance r (z :: t) ≤ (editDistance r t + editCost c z) + 1 := by
      have := editDistance_le_cons_right r z t
      omega
    have h : (min (editDistance r (z :: t) + 1)
        (min (editDistance (c :: r) t + 1) (editDistance r t + editCost c z))) + 1 =
        min (editDistance r (z :: t) + 1 + 1)
          (min (editDistance (c :: r) t + 1 + 1) (editDistance r t + editCost c z + 1)) := by
      rw [min_add_add_right, min_add_add_right]
    rw [h]
    exact le_min h1 (le_min h2 h3)

theorem editDistance_subst_head (a b : Char) (r : List Char) :
    ∀ zs, editDistance (a :: r) zs ≤ editDistance (b :: r) zs + 1 := by
  intro zs
  induction zs with
  | nil => simp [editDistance_nil_right]
  | cons z t ih =>
    rw [editDistance_cons_cons a z r t, editDistance_cons_cons b z r t]
    refine min3_le_succ (by omega) (by omega) ?_
    have := editCost_le_one a z
    omega

theorem editDistance_cons_lip {u v : List Char} (d : Char)
    (hlen : u.length ≤ v.length + 1)
    (h : ∀ zs, editDistance u zs ≤ editDistance v zs + 1) :
    ∀ zs, editDistance (d :: u) zs ≤ editDistance (d :: v) zs + 1 := by
  intro zs
  induction zs with
  | nil => simp [editDistance_nil_right]; omega
  | cons z t ih =>
    rw [editDistance_cons_cons d z u t, editDistance_cons_cons d z v t]
    exact min3_le_succ (by have := h (z :: t); omega) (by omega) (by have := h t; omega)

theorem editDistance_lip_ins (l r : List Char) (c : Char) :
    ∀ zs, editDistance (l ++ r) zs ≤ editDistance (l ++ c :: r) zs + 1 := by
  induction l with
  | nil => simpa using editDistance_ins_head c r
  | cons d l ih =>
    intro zs
    have hlen : (l ++ r).length ≤ (l ++ c :: r).length + 1 := by simp; omega
    simpa using editDistance_cons_lip d hlen ih zs

theorem editDistance_lip_del (l r : List Char) (c : Char) :
    ∀ zs, editDistance (l ++ c :: r) zs ≤ editDistance (l ++ r) zs + 1 := by
  induction l with
  | nil => simpa using fun zs => editDistance_le_cons_left c r zs
  | cons d l ih =>
    intro zs
    have hlen : (l ++ c :: r).length ≤ (l ++ r).length + 1 := by simp; omega
    simpa using editDistance_cons_lip d hlen ih zs

theorem editDistance_lip_subst (l r : List Char) (a b : Char) :
    ∀ zs, editDistance (l ++ a :: r) zs ≤ editDistance (l ++ b :: r) zs + 1 := by
  induction l with
  | nil => simpa using editDistance_subst_head a b r
  | cons d l ih =>
    intro zs
    have hlen : (l ++ a :: r).length ≤ (l ++ b :: r).length + 1 := by simp
    simpa using editDistance_cons_lip d hlen ih zs

theorem Edit.editDistance_le {xs w : List Char} (h : Edit xs w) (zs : List Char) :
    editDistance xs zs ≤ editDistance w zs + 1 := by
  cases h with
  | ins l r c => exact editDistance_lip_ins l r c zs
  | del l r c => exact editDistance_lip_del l r c zs
  | subst l r a b => exact editDistance_lip_subst l r a b zs

/-- Lower bound: no edit script is shorter than `editDistance`. -/
theorem editDistance_le_of_editSeq {n : Nat} {xs ys : List Char}
    (h : EditSeq n xs ys) : editDistance xs ys ≤ n := by
  induction h with
  | refl xs => simp [editDistance_self]
  | step e _ ih =>
    calc editDistance _ _ ≤ editDistance _ _ + 1 := e.editDistance_le _
    _ ≤ _ + 1 := by omega

/-! #### Upper bound: a script of length `editDistance` exists -/

theorem Edit.consLeft {xs ys : List Char} (c : Char) (h : Edit xs ys) :
    Edit (c :: xs) (c :: ys) := by
  cases h with
  | ins l r d => exact Edit.ins (c :: l) r d
  | del l r d => exact Edit.del (c :: l) r d
  | subst l r a b => exact Edit.subst (c :: l) r a b

theorem EditSeq.cons_left {n : Nat} {xs ys : List Char} (c : Char)
    (h : EditSeq n xs ys) : EditSeq n (c :: xs) (c :: ys) := by
  induction h with
  | refl xs => exact EditSeq.refl _
  | step e _ ih => exact EditSeq.step (e.consLeft c) ih

theorem EditSeq.snoc {n : Nat} {xs ys zs : List Char}
    (h : EditSeq n xs ys) (e : Edit ys zs) : EditSeq (n + 1) xs zs := by
  induction h with
  | refl xs => exact EditSeq.step e (EditSeq.refl _)
  | step e' _ ih => exact EditSeq.step e' (ih e)

theorem editSeq_nil_left (ys : List Char) : EditSeq ys.length [] ys := by
  induction ys with
  | nil => exact EditSeq.refl _
  | cons y t ih =>
    have h0 : Edit ([] : List Char) [y] := Edit.ins [] [] y
    exact EditSeq.step h0 (ih.cons_left y)

theorem editSeq_nil_right (xs : List Char) : EditSeq xs.length xs [] := by
  induction xs with
  | nil => exact EditSeq.refl _
  | cons x t ih =>
    have h0 : Edit (x :: t) t := Edit.del [] t x
    exact EditSeq.step h0 ih

theorem editSeq_of_editDistance : ∀ xs ys : List Char,
    EditSeq (editDistance xs ys) xs ys := by
  intro xs
  induction xs with
  | nil => intro ys; rw [editDistance_nil_left]; exact editSeq_nil_left ys
  | cons x xs ihx =>
    intro ys
    induction ys with
    | nil => rw [editDistance_nil_right]; exact editSeq_nil_right (x :: xs)
    | cons y ys ihy =>
      rw [editDistance_cons_cons]
      rcases min_cases (editDistance xs (y :: ys) + 1)
          (min (editDistance (x :: xs) ys + 1) (editDistance xs ys + editCost x y)) with
        ⟨h1, _⟩ | ⟨h1, _⟩
      · rw [h1]
        exact EditSeq.step (Edit.del [] xs x) (ihx (y :: ys))
      · rw [h1]
        rcases min_cases (editDistance (x :: xs) ys + 1)
            (editDistance xs ys + editCost x y) with ⟨h2, _⟩ | ⟨h2, _⟩
        · rw [h2]
          exact EditSeq.snoc ihy (Edit.ins [] ys y)
        · rw [h2]
          by_cases hxy : x = y
          · subst hxy
            simpa [editCost] using (ihx ys).cons_left x
          · have hc : editCost x y = 1 := by simp [editCost, hxy]
            rw [hc]
            exact EditSeq.step (Edit.subst [] xs x y) ((ihx ys).cons_left y)

/-- `editDistance` is the least length of an edit script. -/
theorem editDistance_isLeast (xs ys : List Char) :
    IsLeast {n | EditSeq n xs ys} (editDistance xs ys) :=
  ⟨editSeq_of_editDistance xs ys, fun _ h => editDistance_le_of_editSeq h⟩

/-! #### Symmetry and reversal of edit scripts -/

theorem Edit.symmE {xs ys : List Char} (h : Edit xs ys) : Edit ys xs := by
  cases h with
  | ins l r c => exact Edit.del l r c
  | del l r c => exact Edit.ins l r c
  | subst l r a b => exact Edit.subst l r b a

theorem EditSeq.symm {n : Nat} {xs ys : List Char} (h : EditSeq n xs ys) :
    EditSeq n ys xs := by
  induction h with
  | refl xs => exact EditSeq.refl _
  | step e _ ih => exact ih.snoc e.symmE

theorem Edit.revE {xs ys : List Char} (h : Edit xs ys) :
    Edit xs.reverse ys.reverse := by
  cases h with
  | ins l r c =>
    have := Edit.ins r.reverse l.reverse c
    simpa [List.reverse_append] using this
  | del l r c =>
    have := Edit.del r.reverse l.reverse c
    simpa [List.reverse_append] using this
  | subst l r a b =>
    have := Edit.subst r.reverse l.reverse a b
    simpa [List.reverse_append] using this

theorem EditSeq.rev {n : Nat} {xs ys : List Char} (h : EditSeq n xs ys) :
    EditSeq n xs.reverse ys.reverse := by
  induction h with
  | refl xs => exact EditSeq.refl _
  | step e _ ih => exact EditSeq.step e.revE ih

theorem editSeq_rev_iff {n : Nat} {xs ys : List Char} :
    EditSeq n xs.reverse ys.reverse ↔ EditSeq n xs ys :=
  ⟨fun h => by simpa using h.rev, fun h => h.rev⟩

theorem editSeq_symm_iff {n : Nat} {xs ys : List Char} :
    EditSeq n xs ys ↔ EditSeq n ys xs :=
  ⟨EditSeq.symm, EditSeq.symm⟩

/-- Edit distance of the reversed strings, the quantity the row DP of
the source computes while scanning `s1` left to right. -/
def edR (xs ys : List Char) : Nat := editDistance xs.reverse ys.reverse

theorem edR_isLeast (xs ys : List Char) :
    IsLeast {n | EditSeq n xs ys} (edR xs ys) := by
  have h := editDistance_isLeast xs.reverse ys.reverse
  have hset : {n | EditSeq n xs.reverse ys.reverse} = {n | EditSeq n xs ys} := by
    ext n; exact editSeq_rev_iff
  rw [edR]
  rw [hset] at h
  exact h

theorem edR_nil_right (xs : List Char) : edR xs [] = xs.length := by
  simp [edR, editDistance_nil_right]

theorem edR_nil_left (ys : List Char) : edR [] ys = ys.length := by
  simp [edR, editDistance_nil_left]

theorem edR_snoc_snoc (xs ys : List Char) (x y : Char) :
    edR (xs ++ [x]) (ys ++ [y]) =
      min (edR xs (ys ++ [y]) + 1)
        (min (edR (xs ++ [x]) ys + 1) (edR xs ys + editCost x y)) := by
  simp only [edR, List.reverse_append, List.reverse_singleton, List.singleton_append]
  rw [editDistance_cons_cons]

/-! #### The row DP computes `edR` -/

/-- Expanding a map over `range (n + 1)` at the head. -/
theorem map_range_succ_expand (g : Nat → Nat) (n : Nat) :
    (List.range (n + 1)).map g = g 0 :: (List.range n).map (fun j => g (j + 1)) := by
  rw [List.range_succ_eq_map, List.map_cons, List.map_map]
  rfl

theorem levInner_spec (c : Char) :
    ∀ (u t p : List Char),
      levInner c ((List.range (u.length + 1)).map (fun j => edR p (t ++ u.take j)))
        (edR (p ++ [c]) t) u
      = (List.range u.length).map (fun j => edR (p ++ [c]) (t ++ u.take (j + 1))) := by
  intro u
  induction u with
  | nil => intro t p; simp [levInner]
  | cons c2 u' ih =>
    intro t p
    set f : Nat → Nat := fun j => edR p (t ++ (c2 :: u').take j) with hf
    have h1 : (List.range ((c2 :: u').length + 1)).map f
        = f 0 :: (List.range (u'.length + 1)).map (fun j => f (j + 1)) := by
      rw [show (c2 :: u').length + 1 = (u'.length + 1) + 1 from rfl]
      exact map_range_succ_expand f (u'.length + 1)
    have h2 : (List.range (u'.length + 1)).map (fun j => f (j + 1))
        = f 1 :: (List.range u'.length).map (fun j => f (j + 2)) := by
      rw [map_range_succ_expand (fun j => f (j + 1)) u'.length]
    rw [h1, levInner]
    simp only [List.headD_cons, List.tail_cons, h2, List.headD_cons]
    have hf0 : f 0 = edR p t := by simp [hf]
    have hf1 : f 1 = edR p (t ++ [c2]) := by simp [hf]
    have hv : min (f 1 + 1) (min (edR (p ++ [c]) t + 1)
          (f 0 + (if c = c2 then 0 else 1)))
        = edR (p ++ [c]) (t ++ [c2]) := by
      rw [hf0, hf1, edR_snoc_snoc]
      rfl
    rw [← h2, hv]
    have hrow : (List.range (u'.length + 1)).map (fun j => f (j + 1))
        = (List.range (u'.length + 1)).map
            (fun j => edR p ((t ++ [c2]) ++ u'.take j)) := by
      refine List.map_congr_left ?_
      intro j _
      simp [hf, List.take_succ_cons, List.append_assoc]
    rw [hrow, ih (t ++ [c2]) p]
    rw [show (c2 :: u').length = u'.length + 1 from rfl,
      map_range_succ_expand (fun j => edR (p ++ [c]) (t ++ (c2 :: u').take (j + 1)))
        u'.length]
    refine congrArg₂ _ (by simp) ?_
    refine List.map_congr_left ?_
    intro j _
    simp [List.take_succ_cons, List.append_assoc]

theorem levOuter_spec (s2 : List Char) :
    ∀ (cs p : List Char),
      levOuter s2 ((List.range (s2.length + 1)).map (fun j => edR p (s2.take j)))
        p.length cs
      = (List.range (s2.length + 1)).map (fun j => edR (p ++ cs) (s2.take j)) := by
  intro cs
  induction cs with
  | nil => intro p; simp [levOuter]
  | cons c cs' ih =>
    intro p
    rw [levOuter]
    have hrow : (p.length + 1) ::
          levInner c ((List.range (s2.length + 1)).map (fun j => edR p (s2.take j)))
            (p.length + 1) s2
        = (List.range (s2.length + 1)).map (fun j => edR (p ++ [c]) (s2.take j)) := by
      have hlast : p.length + 1 = edR (p ++ [c]) [] := by
        rw [edR_nil_right]; simp
      have hprev : (List.range (s2.length + 1)).map (fun j => edR p (s2.take j))
          = (List.range (s2.length + 1)).map (fun j => edR p ([] ++ s2.take j)) := by
        simp
      rw [hlast, hprev]
      have hspec := levInner_spec c s2 [] p
      simp only [List.nil_append] at hspec ⊢
      rw [hspec]
      rw [map_range_succ_expand (fun j => edR (p ++ [c]) (s2.take j)) s2.length]
      simp only [List.take_zero]
    rw [hrow]
    have hlen : p.length + 1 = (p ++ [c]).length := by simp
    rw [hlen, ih (p ++ [c])]
    simp [List.append_assoc]

theorem levCompute_eq_edR (s1 s2 : List Char) : levCompute s1 s2 = edR s1 s2 := by
  unfold levCompute
  by_cases h : s2.length = 0
  · rw [if_pos h]
    rw [List.length_eq_zero] at h
    subst h
    rw [edR_nil_right]
  · rw [if_neg h]
    have hinit : List.range (s2.length + 1)
        = (List.range (s2.length + 1)).map (fun j => edR ([] : List Char) (s2.take j)) := by
      have : ∀ j ∈ List.range (s2.length + 1),
          j = edR ([] : List Char) (s2.take j) := by
        intro j hj
        rw [List.mem_range] at hj
        rw [edR_nil_left, List.length_take]
        omega
      calc List.range (s2.length + 1)
          = (List.range (s2.length + 1)).map id := by rw [List.map_id]
        _ = _ := List.map_congr_left (by simpa using this)
    rw [hinit]
    have h0 : (0 : Nat) = ([] : List Char).length := rfl
    rw [h0, levOuter_spec s2 s1 []]
    simp only [List.nil_append]
    rw [List.range_succ, List.map_append]
    simp [List.getLastD_concat]

/-! #### Main correctness of `levenshtein_distance` (claim C9) -/

theorem levenshtein_distance_isLeast (s1 s2 : List Char) :
    IsLeast {n | EditSeq n s1 s2} (levenshtein_distance s1 s2) := by
  unfold levenshtein_distance
  by_cases h : s1.length < s2.length
  · rw [if_pos h, levCompute_eq_edR]
    have hleast := edR_isLeast s2 s1
    have hset : {n | EditSeq n s2 s1} = {n | EditSeq n s1 s2} := by
      ext n; exact editSeq_symm_iff
    rwa [hset] at hleast
  · rw [if_neg h, levCompute_eq_edR]
    exact edR_isLeast s1 s2

/-! ### Analytics engine (experiments/run_analytics.py)

The agent profiles live in `marketplace/shared/models.py`, which is not
among the provided sources; the structures below are modelled from the
spec's data model section. -/

/-- Modelled from the spec: `AgentProfile` (Customer variant) of
`marketplace/shared/models.py`, absent from the sources: `{id, name,
request: free text, menu_features: mapping item_name→willingness_to_pay,
amenity_features: set of required amenity names}` (the id is the key
under which the profile is stored). -/
structure Customer where
  name : String
  request : String
  menu_features : List (String × ℚ)
  amenity_features : List String
deriving DecidableEq, Repr

/-- Modelled from the spec: `AgentProfile` (Business variant) of
`marketplace/shared/models.py`, absent from the sources: `{id, name,
description, rating, menu_features: mapping item_name→price,
amenity_features: mapping amenity→bool}`. -/
structure Business where
  name : String
  description : String
  rating : ℚ
  menu_features : List (String × ℚ)
  amenity_features : List (String × Bool)
deriving DecidableEq, Repr

/-- Lower-cased character list of a string (`str.lower()`). -/
def lowerChars (s : String) : List Char := s.data.map Char.toLower

/-- Absolute value on rationals, written out so that it evaluates by
kernel reduction. -/
def ratAbs (q : ℚ) : ℚ := if q < 0 then -q else q

/-- The state a `MarketplaceAnalytics` object has accumulated before the
utility computations run: agent profiles plus the per-customer orders,
payments and per-business sent messages, keyed by agent id in insertion
order, and the configured fuzzy match distance. -/
structure AnalyticsState where
  customer_agents : List (String × Customer)
  business_agents : List (String × Business)
  customer_orders : List (String × List OrderProposal)
  customer_payments : List (String × List Payment)
  business_messages : List (String × List Message)
  fuzzy_match_distance : Nat
deriving DecidableEq, Repr

/-! #### Fuzzy matching (`filter_valid_proposal_items`, lines 616-693)

Python iterates over the `menu_items` and `proposal_items` sets; we take
the two enumerations as list arguments and prove the result does not
depend on the enumeration order.  `sorted(fuzzy_distances)` sorts
`(distance, menu_item, proposal_item)` tuples lexicographically. -/

/-- Lexicographic key of a `(distance, menu_item, proposal_item)` tuple,
mirroring Python tuple comparison. -/
def tripKey (t : Nat × String × String) : Lex (Nat × Lex (String × String)) :=
  toLex (t.1, toLex (t.2.1, t.2.2))

/-- Python's `<=` on `(int, str, str)` tuples. -/
def tripR (a b : Nat × String × String) : Prop := tripKey a ≤ tripKey b

instance : DecidableRel tripR := fun a b => inferInstanceAs (Decidable (_ ≤ _))

theorem tripKey_injective : Function.Injective tripKey := by
  intro a b h
  unfold tripKey at h
  rw [toLex_inj, Prod.mk.injEq, toLex_inj, Prod.mk.injEq] at h
  obtain ⟨h1, h2, h3⟩ := h
  exact Prod.ext h1 (Prod.ext h2 h3)

instance : IsTotal (Nat × String × String) tripR := ⟨fun a b => le_total _ _⟩

instance : IsTrans (Nat × String × String) tripR := ⟨fun _ _ _ => le_trans⟩

instance : IsAntisymm (Nat × String × String) tripR :=
  ⟨fun _ _ h1 h2 => tripKey_injective (le_antisymm h1 h2)⟩

/-- The greedy assignment loop (`# Greedily pick matches`): scan the
sorted candidate list, and whenever both items are still available emit
the match `(distance, proposal_item, menu_item)` and retire both. -/
def greedyLoop : List (Nat × String × String) → Finset String →
    List (Nat × String × String) → Finset String → Finset String →
    Finset String × List (Nat × String × String)
  | [], matched, fuzzy, _, _ => (matched, fuzzy)
  | (dist, m, q) :: rest, matched, fuzzy, menuAvail, propAvail =>
    if m ∈ menuAvail ∧ q ∈ propAvail then
      greedyLoop rest (insert m matched) (fuzzy ++ [(dist, q, m)])
        (menuAvail.erase m) (propAvail.erase q)
    else
      greedyLoop rest matched fuzzy menuAvail propAvail

theorem greedyLoop_nil (matched : Finset String)
    (fuzzy : List (Nat × String × String)) (mA pA : Finset String) :
    greedyLoop [] matched fuzzy mA pA = (matched, fuzzy) := rfl

theorem greedyLoop_cons (dist : Nat) (m q : String)
    (rest : List (Nat × String × String)) (matched : Finset String)
    (fuzzy : List (Nat × String × String)) (mA pA : Finset String) :
    greedyLoop ((dist, m, q) :: rest) matched fuzzy mA pA =
      if m ∈ mA ∧ q ∈ pA then
        greedyLoop rest (insert m matched) (fuzzy ++ [(dist, q, m)])
          (mA.erase m) (pA.erase q)
      else
        greedyLoop rest matched fuzzy mA pA := rfl

/-- The `fuzzy_distances` candidate list: all remaining menu/proposal
pairs whose lower-cased Levenshtein distance is within the threshold. -/
def fuzzyCands (menu1 prop1 : List String) (d : Nat) :
    List (Nat × String × String) :=
  menu1.flatMap (fun m => prop1.filterMap (fun q =>
    let dist := levenshtein_distance (lowerChars m) (lowerChars q)
    if dist ≤ d then some (dist, m, q) else none))

/-- `filter_valid_proposal_items` over the enumerations of the business
menu set and the proposal item-name set: exact matches first, then the
fuzzy candidates within the threshold sorted by `(distance, menu,
proposal)` and assigned greedily. -/
def filter_valid_proposal_items (menuList propList : List String) (d : Nat) :
    Finset String × List (Nat × String × String) :=
  if 0 < d then
    greedyLoop
      ((fuzzyCands
          (menuList.filter
            (fun m => decide (m ∉ propList.toFinset ∩ menuList.toFinset)))
          (propList.filter
            (fun q => decide (q ∉ propList.toFinset ∩ menuList.toFinset)))
          d).insertionSort tripR)
      (propList.toFinset ∩ menuList.toFinset) []
      (menuList.toFinset \ (propList.toFinset ∩ menuList.toFinset))
      (propList.toFinset \ (propList.toFinset ∩ menuList.toFinset))
  else
    (propList.toFinset ∩ menuList.toFinset, [])

/-! #### Proposal error checking (`check_proposal_errors`, lines 793-908) -/

/-- The proposal validation findings of the analytics engine. -/
inductive OrderProposalError where
  | invalidBusiness (proposal_id business_agent_id customer_agent_id : String)
  | invalidCustomer (proposal_id business_agent_id customer_agent_id : String)
  | invalidMenuItem (proposal_id business_agent_id customer_agent_id : String)
      (proposed_menu_item closest_menu_item : String)
      (closest_menu_item_distance : Nat)
  | invalidMenuItemPrice (proposal_id business_agent_id customer_agent_id : String)
      (menu_item : String) (proposed_price actual_price : ℚ)
  | invalidTotalPrice (proposal_id business_agent_id customer_agent_id : String)
      (proposed_total_price calculated_total_price : ℚ)
deriving DecidableEq, Repr

/-- Python's `<=` on `(int, str)` pairs, used by
`sorted(item_distances)`. -/
def pairR (a b : Nat × String) : Prop := toLex a ≤ toLex b

instance : DecidableRel pairR := fun a b => inferInstanceAs (Decidable (_ ≤ _))

/-- Per-item validation inside `check_proposal_errors`: an unknown item
name is reported together with the closest menu item
(`sorted(item_distances)[0]`), a known one with a wrong price (off by at
least one cent) as a price error. -/
def item_error (menu : List (String × ℚ)) (pid bid cid : String)
    (item : OrderItem) : List OrderProposalError :=
  match List.lookup item.item_name menu with
  | none =>
    let item_distances := menu.map (fun kv =>
      (levenshtein_distance (lowerChars item.item_name) (lowerChars kv.1), kv.1))
    let closest := (item_distances.insertionSort pairR).headD (0, "")
    [OrderProposalError.invalidMenuItem pid bid cid item.item_name closest.2
      closest.1]
  | some price =>
    if ratAbs (item.unit_price - price) ≥ 1 / 100 then
      [OrderProposalError.invalidMenuItemPrice pid bid cid item.item_name
        item.unit_price price]
    else
      []

/-- `check_proposal_errors(proposal, business_agent_id,
customer_agent_id)`: unknown business and customer first, then per-item
errors in proposal order, then the declared-total check against the sum
of `unit_price * quantity`. -/
def check_proposal_errors (st : AnalyticsState) (proposal : OrderProposal)
    (bid cid : String) : List OrderProposalError :=
  let e1 := if (List.lookup bid st.business_agents).isNone then
    [OrderProposalError.invalidBusiness proposal.id bid cid] else []
  let e2 := if (List.lookup cid st.customer_agents).isNone then
    [OrderProposalError.invalidCustomer proposal.id bid cid] else []
  let e3 := match List.lookup bid st.business_agents with
    | none => []
    | some business =>
      let menu := business.menu_features
      let itemErrs := proposal.items.flatMap (item_error menu proposal.id bid cid)
      let proposed_total :=
        (proposal.items.map (fun it => it.unit_price * (it.quantity : ℚ))).sum
      itemErrs ++
        (if ratAbs (proposal.total_price - proposed_total) ≥ 1 / 100 then
          [OrderProposalError.invalidTotalPrice proposal.id bid cid
            proposal.total_price proposed_total]
        else [])
  e1 ++ e2 ++ e3

/-! #### Customer utility (`calculate_customer_utility`, lines 695-783) -/

/-- `round(x, 2)` on exact rationals: round to two decimal places,
ties to even (the decimal analogue of Python's float rounding). -/
def bankersRound (q : ℚ) : ℤ :=
  let f := ⌊q⌋
  let r := q - f
  if r < 1 / 2 then f
  else if 1 / 2 < r then f + 1
  else if f % 2 = 0 then f else f + 1

/-- Round a rational to two decimal places. -/
def round2 (q : ℚ) : ℚ := (bankersRound (q * 100) : ℚ) / 100

/-- `check_amenity_match(customer_agent_id, business_agent_id)`: every
required amenity of the customer appears with value `True` in the
business's amenity map; `False` if either agent is unknown. -/
def check_amenity_match (st : AnalyticsState) (cid bid : String) : Bool :=
  match List.lookup cid st.customer_agents, List.lookup bid st.business_agents with
  | some customer, some business =>
    let required := customer.amenity_features.toFinset
    let available :=
      ((business.amenity_features.filter (fun ab => ab.2)).map Prod.fst).toFinset
    decide (required ⊆ available)
  | _, _ => false

/-- `_find_business_for_proposal(proposal_id)`: the first business (in
insertion order) among whose sent messages an `OrderProposal` with the
given id appears. -/
def find_business_for_proposal (st : AnalyticsState) (pid : String) :
    Option String :=
  st.business_messages.findSome? (fun bm =>
    if bm.2.any (fun msg => match msg with
        | Message.orderProposal p => p.id == pid
        | _ => false) then
      some bm.1
    else none)

/-- A default profile standing in for Python's `KeyError` path (never
reached under the well-formedness hypotheses of the theorems below). -/
def emptyBusiness : Business :=
  { name := "", description := "", rating := 0, menu_features := [],
    amenity_features := [] }

/-- `self.filter_valid_proposal_items(business_agent_id, proposal)`:
resolve the business and run the fuzzy matcher on its menu-name set and
the proposal's item-name set. -/
def filter_valid_items_for (st : AnalyticsState) (bid : String)
    (proposal : OrderProposal) : Finset String × List (Nat × String × String) :=
  let business := (List.lookup bid st.business_agents).getD emptyBusiness
  filter_valid_proposal_items (business.menu_features.map Prod.fst)
    ((proposal.items.map (fun it => it.item_name)).dedup) st.fuzzy_match_distance

/-- One iteration of the `for payment in payments` loop of
`calculate_customer_utility`: accumulate the paid total and whether any
payment met the customer's needs. -/
def utility_step (st : AnalyticsState) (cid : String) (customer : Customer)
    (proposals_received : List OrderProposal) (acc : ℚ × Bool)
    (payment : Payment) : ℚ × Bool :=
  match proposals_received.find? (fun p => p.id == payment.proposal_message_id) with
  | none => acc
  | some proposal =>
    match find_business_for_proposal st proposal.id with
    | none => acc
    | some bid =>
      let res := filter_valid_items_for st bid proposal
      let requested := (customer.menu_features.map Prod.fst).toFinset
      (acc.1 + proposal.total_price,
        acc.2 || (decide (requested ⊆ res.1) && check_amenity_match st cid bid))

/-- `calculate_customer_utility(customer_agent_id)`: returns
`(round(match_score - total_payments, 2), needs_met)` where
`match_score = 2 * sum(customer.menu_features.values())` is counted once
iff some payment met the needs. -/
def calculate_customer_utility (st : AnalyticsState) (cid : String) : ℚ × Bool :=
  match List.lookup cid st.customer_agents with
  | none => (0, false)
  | some customer =>
    let payments := (List.lookup cid st.customer_payments).getD []
    let proposals_received := (List.lookup cid st.customer_orders).getD []
    let r := payments.foldl (utility_step st cid customer proposals_received)
      (0, false)
    let match_score : ℚ :=
      if r.2 then 2 * (customer.menu_features.map Prod.snd).sum else 0
    (round2 (match_score - r.1), r.2)

/-! #### Concrete scenario for the "buritto" test (spec §8, property 6) -/

/-- A business whose menu contains "burrito". -/
def c6Business : Business :=
  { name := "Taco Place", description := "", rating := 0,
    menu_features := [("burrito", 8)], amenity_features := [] }

/-- The customer receiving the misspelled proposal. -/
def c6Customer : Customer :=
  { name := "Alice", request := "", menu_features := [("burrito", 15)],
    amenity_features := [] }

/-- A proposal listing the misspelled item "buritto". -/
def c6Proposal : OrderProposal :=
  { id := "prop-1",
    items := [{ id := "i1", item_name := "buritto", quantity := 1, unit_price := 8 }],
    total_price := 8 }

/-- Analytics state holding the scenario, at a chosen fuzzy distance. -/
def c6State (d : Nat) : AnalyticsState :=
  { customer_agents := [("c1", c6Customer)],
    business_agents := [("b1", c6Business)],
    customer_orders := [], customer_payments := [], business_messages := [],
    fuzzy_match_distance := d }


/-! #### Properties of the greedy fuzzy assignment -/

theorem greedyLoop_fuzzy_append :
    ∀ (cands : List (Nat × String × String)) (matched : Finset String)
      (fuzzy : List (Nat × String × String)) (mA pA : Finset String),
      (greedyLoop cands matched fuzzy mA pA).2
        = fuzzy ++ (greedyLoop cands matched [] mA pA).2 := by
  intro cands
  induction cands with
  | nil => intro matched fuzzy mA pA; simp [greedyLoop_nil]
  | cons t rest ih =>
    intro matched fuzzy mA pA
    obtain ⟨dist, m, q⟩ := t
    by_cases h : m ∈ mA ∧ q ∈ pA
    · rw [greedyLoop_cons, greedyLoop_cons, if_pos h, if_pos h]
      rw [ih _ (fuzzy ++ [(dist, q, m)]) _ _, ih _ ([] ++ [(dist, q, m)]) _ _]
      simp
    · rw [greedyLoop_cons, greedyLoop_cons, if_neg h, if_neg h]
      exact ih _ fuzzy _ _

theorem greedyLoop_out_mem :
    ∀ (cands : List (Nat × String × String)) (matched : Finset String)
      (mA pA : Finset String) (x : Nat × String × String),
      x ∈ (greedyLoop cands matched [] mA pA).2 →
        x.2.2 ∈ mA ∧ x.2.1 ∈ pA ∧ ∃ c ∈ cands, x = (c.1, c.2.2, c.2.1) := by
  intro cands
  induction cands with
  | nil =>
    intro matched mA pA x hx
    rw [greedyLoop_nil] at hx
    simp at hx
  | cons t rest ih =>
    intro matched mA pA x hx
    obtain ⟨dist, m, q⟩ := t
    by_cases h : m ∈ mA ∧ q ∈ pA
    · rw [greedyLoop_cons, if_pos h, greedyLoop_fuzzy_append] at hx
      simp only [List.nil_append, List.singleton_append, List.mem_cons] at hx
      rcases hx with hx | hx
      · subst hx
        exact ⟨h.1, h.2, (dist, m, q), by simp⟩
      · obtain ⟨h1, h2, c, hc, hxc⟩ := ih _ _ _ x hx
        exact ⟨Finset.mem_of_mem_erase h1, Finset.mem_of_mem_erase h2, c,
          List.mem_cons_of_mem _ hc, hxc⟩
    · rw [greedyLoop_cons, if_neg h] at hx
      obtain ⟨h1, h2, c, hc, hxc⟩ := ih _ _ _ x hx
      exact ⟨h1, h2, c, List.mem_cons_of_mem _ hc, hxc⟩

theorem greedyLoop_out_no_reuse :
    ∀ (cands : List (Nat × String × String)) (matched : Finset String)
      (mA pA : Finset String),
      (greedyLoop cands matched [] mA pA).2.Pairwise
        (fun a b => a.2.1 ≠ b.2.1 ∧ a.2.2 ≠ b.2.2) := by
  intro cands
  induction cands with
  | nil => intro matched mA pA; rw [greedyLoop_nil]; simp
  | cons t rest ih =>
    intro matched mA pA
    obtain ⟨dist, m, q⟩ := t
    by_cases h : m ∈ mA ∧ q ∈ pA
    · rw [greedyLoop_cons, if_pos h, greedyLoop_fuzzy_append]
      simp only [List.nil_append, List.singleton_append]
      refine List.Pairwise.cons ?_ (ih _ _ _)
      intro y hy
      obtain ⟨h1, h2, -⟩ := greedyLoop_out_mem rest _ _ _ y hy
      exact ⟨fun hq => (Finset.ne_of_mem_erase h2) hq.symm,
        fun hm => (Finset.ne_of_mem_erase h1) hm.symm⟩
    · rw [greedyLoop_cons, if_neg h]
      exact ih _ _ _

theorem greedyLoop_out_sorted :
    ∀ (cands : List (Nat × String × String)) (matched : Finset String)
      (mA pA : Finset String),
      cands.Pairwise (fun a b => a.1 ≤ b.1) →
        (greedyLoop cands matched [] mA pA).2.Pairwise (fun a b => a.1 ≤ b.1) := by
  intro cands
  induction cands with
  | nil => intro matched mA pA _; rw [greedyLoop_nil]; simp
  | cons t rest ih =>
    intro matched mA pA hpw
    obtain ⟨dist, m, q⟩ := t
    rw [List.pairwise_cons] at hpw
    by_cases h : m ∈ mA ∧ q ∈ pA
    · rw [greedyLoop_cons, if_pos h, greedyLoop_fuzzy_append]
      simp only [List.nil_append, List.singleton_append]
      refine List.Pairwise.cons ?_ (ih _ _ _ hpw.2)
      intro y hy
      obtain ⟨-, -, c, hc, hyc⟩ := greedyLoop_out_mem rest _ _ _ y hy
      have := hpw.1 c hc
      rw [hyc]
      exact this
    · rw [greedyLoop_cons, if_neg h]
      exact ih _ _ _ hpw.2

/-- The sorted candidate list has nondecreasing distances. -/
theorem insertionSort_dist_pairwise (cands : List (Nat × String × String)) :
    (cands.insertionSort tripR).Pairwise (fun a b => a.1 ≤ b.1) := by
  refine (List.sorted_insertionSort tripR cands).imp ?_
  intro a b hab
  unfold tripR tripKey at hab
  rcases (Prod.Lex.le_iff _ _).1 hab with h | h
  · exact le_of_lt h
  · exact le_of_eq h.1

theorem fuzzyCands_perm {menuA menuB propA propB : List String} (d : Nat)
    (hm : menuA.Perm menuB) (hp : propA.Perm propB) :
    (fuzzyCands menuA propA d).Perm (fuzzyCands menuB propB d) := by
  unfold fuzzyCands
  refine List.Perm.trans (List.Perm.flatMap_right _ hm) ?_
  refine List.Perm.flatMap_left _ ?_
  intro a _
  exact hp.filterMap _

/-- Enumeration-order independence of `filter_valid_proposal_items`. -/
theorem filter_valid_proposal_items_perm {m1 m2 p1 p2 : List String} (d : Nat)
    (hm : m1.Perm m2) (hp : p1.Perm p2) :
    filter_valid_proposal_items m1 p1 d = filter_valid_proposal_items m2 p2 d := by
  unfold filter_valid_proposal_items
  have hmf : m1.toFinset = m2.toFinset := List.toFinset_eq_of_perm _ _ hm
  have hpf : p1.toFinset = p2.toFinset := List.toFinset_eq_of_perm _ _ hp
  rw [hmf, hpf]
  by_cases hd : 0 < d
  · rw [if_pos hd, if_pos hd]
    have hsorted : ((fuzzyCands
          (m1.filter (fun m => decide (m ∉ p2.toFinset ∩ m2.toFinset)))
          (p1.filter (fun q => decide (q ∉ p2.toFinset ∩ m2.toFinset)))
          d).insertionSort tripR)
        = ((fuzzyCands
          (m2.filter (fun m => decide (m ∉ p2.toFinset ∩ m2.toFinset)))
          (p2.filter (fun q => decide (q ∉ p2.toFinset ∩ m2.toFinset)))
          d).insertionSort tripR) := by
      refine List.eq_of_perm_of_sorted ?_ (List.sorted_insertionSort tripR _)
        (List.sorted_insertionSort tripR _)
      exact ((List.perm_insertionSort tripR _).trans
        (fuzzyCands_perm d (hm.filter _) (hp.filter _))).trans
        (List.perm_insertionSort tripR _).symm
    rw [hsorted]
  · rw [if_neg hd, if_neg hd]

/-! ### Claim theorems for the Levenshtein and fuzzy-matching layer -/

/-- C9: `levenshtein_distance` computes the standard Levenshtein edit
distance: its value is the least number of single-character insertions,
deletions and substitutions transforming `s1` into `s2`; in particular
it is symmetric and returns `0` iff the strings are equal. -/
theorem C9_levenshtein_distance_correct (s1 s2 : List Char) :
    IsLeast {n | EditSeq n s1 s2} (levenshtein_distance s1 s2)
    ∧ levenshtein_distance s1 s2 = levenshtein_distance s2 s1
    ∧ (levenshtein_distance s1 s2 = 0 ↔ s1 = s2) := by
  refine ⟨levenshtein_distance_isLeast s1 s2, ?_, ?_, ?_⟩
  · have h1 := levenshtein_distance_isLeast s1 s2
    have h2 := levenshtein_distance_isLeast s2 s1
    have hset : {n | EditSeq n s2 s1} = {n | EditSeq n s1 s2} := by
      ext n; exact editSeq_symm_iff
    rw [hset] at h2
    exact h1.unique h2
  · intro h
    have hm := (levenshtein_distance_isLeast s1 s2).1
    rw [h] at hm
    cases hm with
    | refl => rfl
  · intro h
    subst h
    have hlb := (levenshtein_distance_isLeast s1 s1).2 (EditSeq.refl s1)
    omega

/-- C5: given fixed menu and proposal item sets and a threshold,
`filter_valid_proposal_items` is deterministic (its result does not
depend on the enumeration order of either set), assigns fuzzy matches
greedily with the smallest Levenshtein distances first (the emitted
match list has nondecreasing distances), and never assigns the same
menu item to two proposal items nor the same proposal item to two menu
items. -/
theorem C5_filter_valid_proposal_items_deterministic
    (m1 m2 p1 p2 : List String) (d : Nat) (hm : m1.Perm m2) (hp : p1.Perm p2) :
    filter_valid_proposal_items m1 p1 d = filter_valid_proposal_items m2 p2 d
    ∧ (filter_valid_proposal_items m1 p1 d).2.Pairwise (fun a b => a.1 ≤ b.1)
    ∧ (filter_valid_proposal_items m1 p1 d).2.Pairwise
        (fun a b => a.2.1 ≠ b.2.1 ∧ a.2.2 ≠ b.2.2) := by
  refine ⟨filter_valid_proposal_items_perm d hm hp, ?_, ?_⟩
  · unfold filter_valid_proposal_items
    by_cases hd : 0 < d
    · rw [if_pos hd]
      exact greedyLoop_out_sorted _ _ _ _ (insertionSort_dist_pairwise _)
    · rw [if_neg hd]
      simp
  · unfold filter_valid_proposal_items
    by_cases hd : 0 < d
    · rw [if_pos hd]
      exact greedyLoop_out_no_reuse _ _ _ _
    · rw [if_neg hd]
      simp

/-- Witness for C5 at the concrete sets of the spec scenario. -/
theorem C5_filter_valid_proposal_items_witness :
    (["burrito", "taco"].Perm ["taco", "burrito"] ∧ ["buritto"].Perm ["buritto"])
    ∧ (filter_valid_proposal_items ["burrito", "taco"] ["buritto"] 2
        = filter_valid_proposal_items ["taco", "burrito"] ["buritto"] 2
      ∧ (filter_valid_proposal_items ["burrito", "taco"] ["buritto"] 2).2.Pairwise
          (fun a b => a.1 ≤ b.1)
      ∧ (filter_valid_proposal_items ["burrito", "taco"] ["buritto"] 2).2.Pairwise
          (fun a b => a.2.1 ≠ b.2.1 ∧ a.2.2 ≠ b.2.2)) :=
  ⟨⟨by decide, by decide⟩,
    C5_filter_valid_proposal_items_deterministic ["burrito", "taco"]
      ["taco", "burrito"] ["buritto"] ["buritto"] 2 (by decide) (by decide)⟩

unseal Rat.add Rat.sub Rat.mul Rat.inv in
/-- C6 counterexample: for the proposal item "buritto" against the menu
item "burrito", the code does not report a closest distance of `1` at
`fuzzy_match_distance = 0`, and at `fuzzy_match_distance = 1` the item
is not treated as a match (the plain Levenshtein distance is `2`, not
`1`). -/
theorem C6_buritto_counterexample :
    check_proposal_errors (c6State 0) c6Proposal "b1" "c1"
        ≠ [OrderProposalError.invalidMenuItem "prop-1" "b1" "c1" "buritto" "burrito" 1]
    ∧ levenshtein_distance (lowerChars "buritto") (lowerChars "burrito") = 2
    ∧ (filter_valid_proposal_items ["burrito"] ["buritto"] 1).1 ≠ {"burrito"} := by
  decide

unseal Rat.add Rat.sub Rat.mul Rat.inv in
/-- C6 amended: the "buritto" proposal against a menu containing
"burrito" is at Levenshtein distance `2`; with `fuzzy_match_distance =
0` (and likewise `1`) it is flagged `InvalidMenuItem` with
`closest_menu_item = "burrito"` and `closest_menu_item_distance = 2`,
and not matched by the fuzzy matcher; with `fuzzy_match_distance = 2`
the item is instead treated as a match. -/
theorem C6_buritto_amended :
    check_proposal_errors (c6State 0) c6Proposal "b1" "c1"
        = [OrderProposalError.invalidMenuItem "prop-1" "b1" "c1" "buritto" "burrito" 2]
    ∧ check_proposal_errors (c6State 1) c6Proposal "b1" "c1"
        = [OrderProposalError.invalidMenuItem "prop-1" "b1" "c1" "buritto" "burrito" 2]
    ∧ filter_valid_proposal_items ["burrito"] ["buritto"] 1 = (∅, [])
    ∧ filter_valid_proposal_items ["burrito"] ["buritto"] 2
        = ({"burrito"}, [(2, "buritto", "burrito")]) := by
  decide

/-! ### Claim C3: customer utility -/

/-- The price the analytics attributes to a payment: the total price of
the first received proposal whose id the payment references. -/
def resolvedPrice (proposals : List OrderProposal) (pay : Payment) : ℚ :=
  match proposals.find? (fun p => p.id == pay.proposal_message_id) with
  | some pr => pr.total_price
  | none => 0

/-- Whether a payment resolves to a received proposal and a sending
business (the condition under which the utility loop counts it). -/
def payment_resolvable (st : AnalyticsState) (proposals : List OrderProposal)
    (pay : Payment) : Bool :=
  match proposals.find? (fun p => p.id == pay.proposal_message_id) with
  | none => false
  | some pr => (find_business_for_proposal st pr.id).isSome

/-- Whether a payment meets the customer's needs: the referenced
proposal's fuzzy-matched item set covers all requested items and the
paying business satisfies the required amenities. -/
def payment_meets (st : AnalyticsState) (cid : String) (customer : Customer)
    (proposals : List OrderProposal) (pay : Payment) : Bool :=
  match proposals.find? (fun p => p.id == pay.proposal_message_id) with
  | none => false
  | some proposal =>
    match find_business_for_proposal st proposal.id with
    | none => false
    | some bid =>
      decide ((customer.menu_features.map Prod.fst).toFinset
          ⊆ (filter_valid_items_for st bid proposal).1)
        && check_amenity_match st cid bid

theorem utility_foldl_spec (st : AnalyticsState) (cid : String)
    (customer : Customer) (proposals : List OrderProposal) :
    ∀ (ps : List Payment) (acc : ℚ × Bool),
      (∀ pay ∈ ps, payment_resolvable st proposals pay = true) →
      ps.foldl (utility_step st cid customer proposals) acc
        = (acc.1 + (ps.map (resolvedPrice proposals)).sum,
           acc.2 || ps.any (payment_meets st cid customer proposals)) := by
  intro ps
  induction ps with
  | nil => intro acc _; simp
  | cons pay rest ih =>
    intro acc hres
    have hpay := hres pay (List.mem_cons_self _ _)
    unfold payment_resolvable at hpay
    rw [List.foldl_cons]
    rcases hfind : proposals.find? (fun p => p.id == pay.proposal_message_id) with
      _ | pr
    · rw [hfind] at hpay
      simp at hpay
    · rw [hfind] at hpay
      have hpay2 : (find_business_for_proposal st pr.id).isSome = true := by
        simpa using hpay
      rcases hbiz : find_business_for_proposal st pr.id with _ | bid
      · rw [hbiz] at hpay2
        simp at hpay2
      · have hstep : utility_step st cid customer proposals acc pay
            = (acc.1 + pr.total_price,
               acc.2 || (decide ((customer.menu_features.map Prod.fst).toFinset
                   ⊆ (filter_valid_items_for st bid pr).1)
                 && check_amenity_match st cid bid)) := by
          simp only [utility_step, hfind, hbiz]
        rw [hstep, ih _ (fun q hq => hres q (List.mem_cons_of_mem _ hq))]
        have hprice : resolvedPrice proposals pay = pr.total_price := by
          simp only [resolvedPrice, hfind]
        have hmeets : payment_meets st cid customer proposals pay
            = (decide ((customer.menu_features.map Prod.fst).toFinset
                  ⊆ (filter_valid_items_for st bid pr).1)
                && check_amenity_match st cid bid) := by
          simp only [payment_meets, hfind, hbiz]
        rw [List.map_cons, List.sum_cons, List.any_cons, hprice, hmeets]
        refine Prod.ext ?_ ?_
        · simp [add_assoc]
        · simp [Bool.or_assoc]

/-- C3: `calculate_customer_utility` returns
`(round(match_score - total_payments, 2), needs_met)` where
`match_score = 2 * Σ(willingness-to-pay)` is counted exactly when some
payment met the customer's needs, and `total_payments` sums the total
prices of the proposals the payments reference (each payment of the
customer resolving to a received proposal and its business). -/
theorem C3_calculate_customer_utility (st : AnalyticsState) (cid : String)
    (customer : Customer)
    (h1 : List.lookup cid st.customer_agents = some customer)
    (hres : ∀ pay ∈ (List.lookup cid st.customer_payments).getD [],
      payment_resolvable st ((List.lookup cid st.customer_orders).getD []) pay
        = true) :
    calculate_customer_utility st cid =
      (round2 ((if ((List.lookup cid st.customer_payments).getD []).any
            (payment_meets st cid customer
              ((List.lookup cid st.customer_orders).getD []))
          then 2 * (customer.menu_features.map Prod.snd).sum else 0)
        - (((List.lookup cid st.customer_payments).getD []).map
            (resolvedPrice ((List.lookup cid st.customer_orders).getD []))).sum),
       ((List.lookup cid st.customer_payments).getD []).any
         (payment_meets st cid customer
           ((List.lookup cid st.customer_orders).getD []))) := by
  simp only [calculate_customer_utility, h1]
  rw [utility_foldl_spec st cid customer _ _ _ hres]
  simp

/-! #### Concrete utility round-trip (spec §8, property 5) -/

/-- The known customer of the utility round-trip scenario. -/
def c3Customer : Customer :=
  { name := "Alice", request := "tacos and burritos with wifi",
    menu_features := [("taco", 10), ("burrito", 15)],
    amenity_features := ["wifi"] }

/-- The exactly matching business of the scenario. -/
def c3Business : Business :=
  { name := "Taqueria", description := "", rating := 5,
    menu_features := [("taco", 10), ("burrito", 15)],
    amenity_features := [("wifi", true)] }

/-- The correctly priced proposal of total 25. -/
def c3Proposal : OrderProposal :=
  { id := "prop-c3",
    items := [{ id := "i1", item_name := "taco", quantity := 1, unit_price := 10 },
      { id := "i2", item_name := "burrito", quantity := 1, unit_price := 15 }],
    total_price := 25 }

/-- The payment accepting the proposal. -/
def c3Payment : Payment := { proposal_message_id := "prop-c3" }

/-- Analytics state of the round-trip scenario. -/
def c3State : AnalyticsState :=
  { customer_agents := [("c1", c3Customer)],
    business_agents := [("b1", c3Business)],
    customer_orders := [("c1", [c3Proposal])],
    customer_payments := [("c1", [c3Payment])],
    business_messages := [("b1", [Message.orderProposal c3Proposal])],
    fuzzy_match_distance := 0 }

unseal Rat.add Rat.sub Rat.mul Rat.inv in
/-- Witness for C3: on the concrete round-trip scenario the computed
utility is `2 * (10 + 15) - 25 = 25` with the needs met. -/
theorem C3_calculate_customer_utility_witness :
    (List.lookup "c1" c3State.customer_agents = some c3Customer
      ∧ ∀ pay ∈ (List.lookup "c1" c3State.customer_payments).getD [],
          payment_resolvable c3State
            ((List.lookup "c1" c3State.customer_orders).getD []) pay = true)
    ∧ calculate_customer_utility c3State "c1" = (25, true) := by
  refine ⟨⟨by decide, by decide⟩, ?_⟩
  have h := C3_calculate_customer_utility c3State "c1" c3Customer (by decide)
    (by decide)
  rw [h]
  decide

/-! ### Protocol: SendMessage execution
(marketplace/protocol/send_message.py) -/

/-- The `SendMessage` action (marketplace/actions/actions.py); the
timestamp is an opaque ordering value. -/
structure SendMessage where
  from_agent_id : String
  to_agent_id : String
  created_at : Nat
  message : Message
deriving DecidableEq, Repr

/-- The content of an `ActionExecutionResult` as produced by
`execute_send_message`: a plain error dict, a typed error dict with an
`error_type`, or the echoed message payload on success. -/
inductive ResultContent where
  | errorText (msg : String)
  | errorTyped (error_type msg : String)
  | sent (m : SendMessage)
deriving DecidableEq, Repr

/-- `ActionExecutionResult` (platform/shared/models.py). -/
structure ActionExecutionResult where
  content : ResultContent
  is_error : Bool
deriving DecidableEq, Repr

/-- A recorded row of the actions table as seen by the proposal query:
the `SendMessage` request it holds and whether the recorded result was
an error (the query inspects only the request). -/
structure ActionRowE where
  request : SendMessage
  is_error : Bool
deriving DecidableEq, Repr

/-- The database slice the send-message path reads: the registered agent
ids and the recorded send-message action rows. -/
structure DB where
  agents : List String
  actions : List ActionRowE
deriving DecidableEq, Repr

/-- Modelled from the spec: the query builders of
`marketplace/database/queries.py` are absent from the sources.  As
composed by `_validate_message_content`,
`from_agent(send_message.to_agent_id)` matches rows whose request
parameters have `from_agent_id` equal to the payment's target,
`order_proposals()` matches rows whose message is an `OrderProposal`,
and `order_proposal_id(p)` matches rows whose proposal id is `p`; the
conjunction is evaluated over the actions table by
`database.actions.find`, which filters on the recorded request only.
Note the payment's sender is never passed into the query. -/
def proposal_query_matches (to_agent_id pid : String) (row : ActionRowE) : Bool :=
  (row.request.from_agent_id == to_agent_id)
    && (match row.request.message with
        | Message.orderProposal p => p.id == pid
        | _ => false)

/-- The `order_proposals` list built by the validation loop: every
matching row is validated back into a `SendMessage` and its
`OrderProposal` collected; expiry checking is disabled (the commented
out branch in the source), so the proposal is collected regardless of
its `expiry_time`. -/
def find_order_proposals (db : DB) (to_agent_id pid : String) :
    List OrderProposal :=
  (db.actions.filter (proposal_query_matches to_agent_id pid)).filterMap
    (fun row => match row.request.message with
      | Message.orderProposal p => some p
      | _ => none)

/-- `_validate_message_content`: payments must reference a proposal the
target business previously sent; all other message kinds pass.  Returns
the `(error_type, message)` pair of the error dict, or `none` when
valid. -/
def validate_message_content (sm : SendMessage) (db : DB) :
    Option (String × String) :=
  match sm.message with
  | Message.payment pay =>
    if (find_order_proposals db sm.to_agent_id pay.proposal_message_id).isEmpty
    then
      some ("invalid_proposal",
        "No unexpired order proposals found with id " ++ pay.proposal_message_id)
    else none
  | _ => none

/-- `execute_send_message`: unknown targets fail with a plain error,
invalid content with the typed error, and otherwise the message payload
is returned as a non-error result. -/
def execute_send_message (sm : SendMessage) (db : DB) : ActionExecutionResult :=
  if db.agents.contains sm.to_agent_id = false then
    { content := ResultContent.errorText
        ("to_agent_id " ++ sm.to_agent_id ++ " not found"),
      is_error := true }
  else
    match validate_message_content sm db with
    | some e => { content := ResultContent.errorTyped e.1 e.2, is_error := true }
    | none => { content := ResultContent.sent sm, is_error := false }

/-- The claim's validation predicate: some `SendMessage` carrying an
`OrderProposal` with the given id was previously successfully sent by
the business to this particular customer. -/
def proposal_sent_to (db : DB) (business customer pid : String) : Bool :=
  db.actions.any (fun row =>
    row.request.from_agent_id == business
      && row.request.to_agent_id == customer
      && !row.is_error
      && (match row.request.message with
          | Message.orderProposal p => p.id == pid
          | _ => false))

/-- What the code actually checks: some recorded `SendMessage` action by
the target business carries an `OrderProposal` with the given id,
regardless of its recipient. -/
def proposal_sent_by (db : DB) (business pid : String) : Bool :=
  db.actions.any (proposal_query_matches business pid)

theorem find_order_proposals_isEmpty (db : DB) (b pid : String) :
    (find_order_proposals db b pid).isEmpty = !(proposal_sent_by db b pid) := by
  unfold find_order_proposals proposal_sent_by
  generalize db.actions = rows
  induction rows with
  | nil => simp
  | cons row rest ih =>
    by_cases h : proposal_query_matches b pid row = true
    · rw [List.filter_cons_of_pos h, List.any_cons]
      have h2 := h
      unfold proposal_query_matches at h2
      rcases hmsg : row.request.message with m | p | p
      · rw [hmsg] at h2; simp at h2
      · rw [List.filterMap_cons, hmsg]
        simp [h]
      · rw [hmsg] at h2; simp at h2
    · rw [List.filter_cons_of_neg h, List.any_cons]
      rw [ih]
      simp [h]

/-! #### C1 scenario: a proposal sent to a *different* customer -/

/-- A proposal with an already-expired `expiry_time` (expiry checking is
disabled, so it still validates). -/
def c1Proposal : OrderProposal :=
  { id := "p1",
    items := [{ id := "i1", item_name := "taco", quantity := 1, unit_price := 10 }],
    total_price := 10, expiry_time := some "2020-01-01T00:00:00Z" }

/-- The payment message referencing that proposal. -/
def c1Pay : Payment := { proposal_message_id := "p1" }

/-- The payment `SendMessage` from customer `c1` to business `b1`. -/
def c1Payment : SendMessage :=
  { from_agent_id := "c1", to_agent_id := "b1", created_at := 2,
    message := Message.payment c1Pay }

/-- The recorded proposal send from business `b1` to a chosen
recipient. -/
def c1ProposalSend (recipient : String) : SendMessage :=
  { from_agent_id := "b1", to_agent_id := recipient, created_at := 1,
    message := Message.orderProposal c1Proposal }

/-- Database where `b1` sent the proposal to a different customer
`c2`. -/
def c1DB : DB :=
  { agents := ["c1", "c2", "b1"],
    actions := [{ request := c1ProposalSend "c2", is_error := false }] }

/-- Database where `b1` sent the proposal to the paying customer `c1`
itself. -/
def c1DBpos : DB :=
  { agents := ["c1", "b1"],
    actions := [{ request := c1ProposalSend "c1", is_error := false }] }

/-- C1 counterexample: a payment from `c1` to `b1` referencing a
proposal that `b1` sent only to `c2` succeeds (non-error result), even
though no `SendMessage` carrying an `OrderProposal` with that id was
ever sent by the target business *to this sender* — refuting the
claimed "if and only if". -/
theorem C1_counterexample :
    (execute_send_message c1Payment c1DB).is_error = false
    ∧ proposal_sent_to c1DB "b1" "c1" "p1" = false := by
  decide

/-- The typed error result `execute_send_message` returns when no
matching proposal exists. -/
def invalidProposalResult (pid : String) : ActionExecutionResult :=
  { content := ResultContent.errorTyped "invalid_proposal"
      ("No unexpired order proposals found with id " ++ pid),
    is_error := true }

/-- C1 amended: for a `SendMessage` whose message is a `Payment` with
proposal id `p` and whose target agent exists, `execute_send_message`
returns a non-error result iff some recorded `SendMessage` action by
the payment's *target business* carries an `OrderProposal` with id `p`
— regardless of which agent that proposal was addressed to; expiry
checking is disabled, so a proposal with any `expiry_time` still
validates; when no match is found the result is an `is_error` result
whose `error_type` is `invalid_proposal`. -/
theorem C1_execute_send_message_amended (sm : SendMessage) (db : DB)
    (pay : Payment) (hmsg : sm.message = Message.payment pay)
    (htarget : db.agents.contains sm.to_agent_id = true) :
    ((execute_send_message sm db).is_error = false
      ↔ proposal_sent_by db sm.to_agent_id pay.proposal_message_id = true)
    ∧ (proposal_sent_by db sm.to_agent_id pay.proposal_message_id = false →
        execute_send_message sm db
          = invalidProposalResult pay.proposal_message_id) := by
  have hval : validate_message_content sm db
      = (if (!(proposal_sent_by db sm.to_agent_id pay.proposal_message_id))
            = true
         then some ("invalid_proposal",
            "No unexpired order proposals found with id "
              ++ pay.proposal_message_id)
         else none) := by
    simp only [validate_message_content, hmsg, find_order_proposals_isEmpty]
  have hexec : execute_send_message sm db
      = (match validate_message_content sm db with
        | some e =>
          { content := ResultContent.errorTyped e.1 e.2, is_error := true }
        | none => { content := ResultContent.sent sm, is_error := false }) := by
    unfold execute_send_message
    rw [htarget]
    rfl
  cases hP : proposal_sent_by db sm.to_agent_id pay.proposal_message_id with
  | false =>
    rw [hP] at hval
    simp only [Bool.not_false, if_pos] at hval
    refine ⟨?_, fun _ => ?_⟩
    · rw [hexec, hval]
      simp
    · rw [hexec, hval]
      rfl
  | true =>
    rw [hP] at hval
    simp only [Bool.not_true] at hval
    rw [if_neg (by simp)] at hval
    refine ⟨?_, fun hcontra => ?_⟩
    · rw [hexec, hval]
      simp
    · simp at hcontra

/-- Witness for the amended C1 at a concrete database (the proposal is
expired and was addressed to the paying customer itself). -/
theorem C1_execute_send_message_witness :
    (c1Payment.message = Message.payment c1Pay
      ∧ c1DBpos.agents.contains c1Payment.to_agent_id = true)
    ∧ (((execute_send_message c1Payment c1DBpos).is_error = false
        ↔ proposal_sent_by c1DBpos c1Payment.to_agent_id
            c1Pay.proposal_message_id = true)
      ∧ (proposal_sent_by c1DBpos c1Payment.to_agent_id
            c1Pay.proposal_message_id = false →
          execute_send_message c1Payment c1DBpos
            = invalidProposalResult c1Pay.proposal_message_id)) :=
  ⟨⟨rfl, by decide⟩,
    C1_execute_send_message_amended c1Payment c1DBpos c1Pay rfl (by decide)⟩

/-! ### Business agent payment handling
(marketplace/agents/business/agent.py, `_handle_payment`) -/

/-- Status of a proposal in the business agent's ledger. -/
inductive ProposalStatus where
  | pending
  | accepted
  | rejected
deriving DecidableEq, Repr

/-- Modelled from the spec: `ProposalRecord` of the Proposal Ledger
(`marketplace/agents/proposal_storage.py`, absent from the sources):
`{proposal, business_id, customer_id, status}`, created with status
`pending`. -/
structure ProposalRecord where
  proposal : OrderProposal
  business_id : String
  customer_id : String
  status : ProposalStatus
deriving DecidableEq, Repr

/-- Modelled from the spec: `OrderProposalStorage.get_proposal
(proposal_id) -> record | absent`, the ledger keyed by proposal id. -/
def get_proposal (storage : List (String × ProposalRecord)) (pid : String) :
    Option ProposalRecord :=
  List.lookup pid storage

/-- Modelled from the spec: `update_proposal_status(proposal_id,
new_status)` sets the status of the record with that id (no-op when
absent). -/
def update_proposal_status (storage : List (String × ProposalRecord))
    (pid : String) (new_status : ProposalStatus) :
    List (String × ProposalRecord) :=
  storage.map (fun kv =>
    if kv.1 = pid then (kv.1, { kv.2 with status := new_status }) else kv)

/-- The mutable state of a business agent that `_handle_payment`
touches: its proposal ledger and its list of confirmed orders. -/
structure BusinessState where
  proposal_storage : List (String × ProposalRecord)
  confirmed_orders : List String
deriving DecidableEq, Repr

/-- The message `_handle_payment` returns: a payment confirmation
(generated from the proposal id and its total price) or the
proposal-not-found error message. -/
inductive PaymentResponse where
  | confirmation (proposal_id : String) (total_price : ℚ)
  | proposalNotFoundError (proposal_id : String)
deriving DecidableEq, Repr

/-- `_handle_payment(customer_id, payment)`: accept iff the referenced
proposal exists in the ledger with status `pending`; on acceptance the
status becomes `accepted` and the proposal id is appended to
`confirmed_orders`; otherwise the agent's own bookkeeping rejects the
payment with an error message. -/
def handle_payment (s : BusinessState) (customer_id : String)
    (payment : Payment) : BusinessState × PaymentResponse :=
  let proposal_id := payment.proposal_message_id
  match get_proposal s.proposal_storage proposal_id with
  | some stored =>
    if stored.status = ProposalStatus.pending then
      let storage2 := update_proposal_status s.proposal_storage proposal_id
        ProposalStatus.accepted
      ({ proposal_storage := storage2,
         confirmed_orders := s.confirmed_orders ++ [proposal_id] },
       PaymentResponse.confirmation proposal_id stored.proposal.total_price)
    else
      (s, PaymentResponse.proposalNotFoundError proposal_id)
  | none => (s, PaymentResponse.proposalNotFoundError proposal_id)

/-- Sequential processing of a list of `(customer_id, payment)` pairs
through `_handle_payment`, collecting the responses. -/
def handle_payments (s : BusinessState) :
    List (String × Payment) → BusinessState × List PaymentResponse
  | [] => (s, [])
  | cp :: rest =>
    let step := handle_payment s cp.1 cp.2
    let tail := handle_payments step.1 rest
    (tail.1, step.2 :: tail.2)

/-- The ledger holds the proposal id with status `pending`. -/
def pPending (s : BusinessState) (p : String) : Prop :=
  ∃ r, get_proposal s.proposal_storage p = some r
    ∧ r.status = ProposalStatus.pending

instance (s : BusinessState) (p : String) : Decidable (pPending s p) := by
  unfold pPending
  rcases get_proposal s.proposal_storage p with _ | r
  · exact isFalse (by simp)
  · rcases h : decide (r.status = ProposalStatus.pending) with _ | _
    · exact isFalse (by simpa using of_decide_eq_false h)
    · exact isTrue ⟨r, rfl, of_decide_eq_true h⟩

theorem lookup_update_self (storage : List (String × ProposalRecord))
    (p : String) (ns : ProposalStatus) :
    List.lookup p (update_proposal_status storage p ns)
      = (List.lookup p storage).map (fun r => { r with status := ns }) := by
  induction storage with
  | nil => rfl
  | cons kv rest ih =>
    unfold update_proposal_status at ih ⊢
    by_cases h : kv.1 = p
    · rw [List.map_cons, if_pos h]
      rw [List.lookup_cons, List.lookup_cons]
      have hbeq : (p == kv.1) = true := by simp [h]
      simp [hbeq]
    · rw [List.map_cons, if_neg h]
      rw [List.lookup_cons, List.lookup_cons]
      have hbeq : (p == kv.1) = false := by simp; exact fun he => h he.symm
      simp only [hbeq]
      exact ih

theorem lookup_update_ne (storage : List (String × ProposalRecord))
    (p q : String) (ns : ProposalStatus) (hne : q ≠ p) :
    List.lookup p (update_proposal_status storage q ns)
      = List.lookup p storage := by
  induction storage with
  | nil => rfl
  | cons kv rest ih =>
    unfold update_proposal_status at ih ⊢
    by_cases h : kv.1 = q
    · rw [List.map_cons, if_pos h]
      rw [List.lookup_cons, List.lookup_cons]
      have hbeq : (p == kv.1) = false := by
        simp
        intro he
        exact hne (by rw [← h, he])
      simp only [hbeq]
      exact ih
    · rw [List.map_cons, if_neg h]
      rw [List.lookup_cons, List.lookup_cons]
      by_cases hpk : (p == kv.1) = true
      · simp [hpk]
      · simp only [Bool.not_eq_true] at hpk
        simp only [hpk]
        exact ih

theorem handle_payments_nil (s : BusinessState) : handle_payments s [] = (s, []) :=
  rfl

theorem handle_payments_cons (s : BusinessState) (cp : String × Payment)
    (rest : List (String × Payment)) :
    handle_payments s (cp :: rest)
      = ((handle_payments (handle_payment s cp.1 cp.2).1 rest).1,
         (handle_payment s cp.1 cp.2).2
           :: (handle_payments (handle_payment s cp.1 cp.2).1 rest).2) := rfl

theorem handle_payment_accept (s : BusinessState) (cid : String) (pay : Payment)
    (r : ProposalRecord)
    (hget : get_proposal s.proposal_storage pay.proposal_message_id = some r)
    (hpend : r.status = ProposalStatus.pending) :
    handle_payment s cid pay
      = ({ proposal_storage :=
            update_proposal_status s.proposal_storage pay.proposal_message_id
              ProposalStatus.accepted,
           confirmed_orders := s.confirmed_orders ++ [pay.proposal_message_id] },
         PaymentResponse.confirmation pay.proposal_message_id
           r.proposal.total_price) := by
  simp only [handle_payment, hget, hpend, if_pos]

theorem handle_payment_reject (s : BusinessState) (cid : String) (pay : Payment)
    (h : ¬ pPending s pay.proposal_message_id) :
    handle_payment s cid pay
      = (s, PaymentResponse.proposalNotFoundError pay.proposal_message_id) := by
  unfold handle_payment
  rcases hget : get_proposal s.proposal_storage pay.proposal_message_id with _ | r
  · simp [hget]
  · have hnp : ¬ r.status = ProposalStatus.pending := fun hp => h ⟨r, hget, hp⟩
    simp [hget, hnp]

theorem handle_payment_other (s : BusinessState) (cid : String) (pay : Payment)
    (p : String) (hne : pay.proposal_message_id ≠ p) :
    List.lookup p (handle_payment s cid pay).1.proposal_storage
        = List.lookup p s.proposal_storage
    ∧ (handle_payment s cid pay).1.confirmed_orders.count p
        = s.confirmed_orders.count p := by
  unfold handle_payment
  rcases hget : get_proposal s.proposal_storage pay.proposal_message_id with _ | r
  · simp [hget]
  · simp only [hget]
    by_cases hp : r.status = ProposalStatus.pending
    · simp only [if_pos hp]
      refine ⟨lookup_update_ne _ _ _ _ hne, ?_⟩
      rw [List.count_append]
      have : [pay.proposal_message_id].count p = 0 := by
        rw [List.count_eq_zero]
        intro hmem
        rw [List.mem_singleton] at hmem
        exact hne hmem.symm
      omega
    · simp only [if_neg hp]
      exact ⟨by trivial, by trivial⟩

theorem handle_payments_terminal (p : String) :
    ∀ (ps : List (String × Payment)) (s : BusinessState), ¬ pPending s p →
      List.lookup p (handle_payments s ps).1.proposal_storage
          = List.lookup p s.proposal_storage
      ∧ (handle_payments s ps).1.confirmed_orders.count p
          = s.confirmed_orders.count p
      ∧ List.Forall₂ (fun (q : String × Payment) r =>
          q.2.proposal_message_id = p →
            r = PaymentResponse.proposalNotFoundError p)
          ps (handle_payments s ps).2 := by
  intro ps
  induction ps with
  | nil => intro s _; exact ⟨rfl, rfl, List.Forall₂.nil⟩
  | cons cp rest ih =>
    intro s hs
    rw [handle_payments_cons]
    by_cases hid : cp.2.proposal_message_id = p
    · have hstep := handle_payment_reject s cp.1 cp.2 (by rw [hid]; exact hs)
      rw [hstep]
      obtain ⟨ha, hb, hc⟩ := ih s hs
      exact ⟨ha, hb, List.Forall₂.cons (fun _ => by rw [hid]) hc⟩
    · obtain ⟨ho1, ho2⟩ := handle_payment_other s cp.1 cp.2 p hid
      have hs2 : ¬ pPending (handle_payment s cp.1 cp.2).1 p := by
        intro hpp
        obtain ⟨r, hr, hrp⟩ := hpp
        unfold get_proposal at hr
        rw [ho1] at hr
        exact hs ⟨r, hr, hrp⟩
      obtain ⟨ha, hb, hc⟩ := ih _ hs2
      refine ⟨by rw [ha, ho1], by rw [hb, ho2], ?_⟩
      exact List.Forall₂.cons (fun hq => absurd hq hid) hc

theorem handle_payments_no_ref (p : String) :
    ∀ (ps : List (String × Payment)) (s : BusinessState),
      (∀ q ∈ ps, q.2.proposal_message_id ≠ p) →
      List.lookup p (handle_payments s ps).1.proposal_storage
          = List.lookup p s.proposal_storage
      ∧ (handle_payments s ps).1.confirmed_orders.count p
          = s.confirmed_orders.count p := by
  intro ps
  induction ps with
  | nil => intro s _; exact ⟨rfl, rfl⟩
  | cons cp rest ih =>
    intro s hall
    rw [handle_payments_cons]
    have hid := hall cp (List.mem_cons_self _ _)
    obtain ⟨ho1, ho2⟩ := handle_payment_other s cp.1 cp.2 p hid
    obtain ⟨ha, hb⟩ := ih _ (fun q hq => hall q (List.mem_cons_of_mem _ hq))
    exact ⟨by rw [ha, ho1], by rw [hb, ho2]⟩

theorem handle_payments_append (pre rest : List (String × Payment)) :
    ∀ s : BusinessState,
      handle_payments s (pre ++ rest)
        = ((handle_payments (handle_payments s pre).1 rest).1,
           (handle_payments s pre).2
             ++ (handle_payments (handle_payments s pre).1 rest).2) := by
  induction pre with
  | nil => intro s; rw [List.nil_append, handle_payments_nil]; rfl
  | cons cp pre ih =>
    intro s
    rw [List.cons_append, handle_payments_cons, handle_payments_cons, ih]
    rfl

theorem handle_payments_count_invariant (p : String) :
    ∀ (ps : List (String × Payment)) (s : BusinessState),
      ((pPending s p ∧ s.confirmed_orders.count p = 0)
        ∨ (¬ pPending s p ∧ s.confirmed_orders.count p ≤ 1)) →
      ((pPending (handle_payments s ps).1 p
          ∧ (handle_payments s ps).1.confirmed_orders.count p = 0)
        ∨ (¬ pPending (handle_payments s ps).1 p
          ∧ (handle_payments s ps).1.confirmed_orders.count p ≤ 1)) := by
  intro ps
  induction ps with
  | nil => intro s h; exact h
  | cons cp rest ih =>
    intro s h
    rw [handle_payments_cons]
    refine ih _ ?_
    by_cases hid : cp.2.proposal_message_id = p
    · by_cases hpp : pPending s p
      · obtain ⟨r, hget, hrp⟩ := hpp
        have hcnt : s.confirmed_orders.count p = 0 := by
          rcases h with ⟨_, hc⟩ | ⟨hnp, _⟩
          · exact hc
          · exact absurd ⟨r, hget, hrp⟩ hnp
        have hstep := handle_payment_accept s cp.1 cp.2 r (by rw [hid]; exact hget)
          hrp
        rw [hstep]
        right
        constructor
        · intro hpp2
          obtain ⟨r2, hr2, hr2p⟩ := hpp2
          unfold get_proposal at hr2
          rw [hid, lookup_update_self] at hr2
          unfold get_proposal at hget
          rw [hget] at hr2
          simp at hr2
          rw [← hr2] at hr2p
          simp at hr2p
        · simp only [List.count_append]
          have : [cp.2.proposal_message_id].count p = 1 := by
            simp [List.count_singleton, hid]
          omega
      · rw [handle_payment_reject s cp.1 cp.2 (by rw [hid]; exact hpp)]
        rcases h with ⟨hp, _⟩ | h
        · exact absurd hp hpp
        · exact Or.inr h
    · obtain ⟨ho1, ho2⟩ := handle_payment_other s cp.1 cp.2 p hid
      have hpiff : pPending (handle_payment s cp.1 cp.2).1 p ↔ pPending s p := by
        unfold pPending get_proposal
        rw [ho1]
      rcases h with ⟨hp, hc⟩ | ⟨hnp, hc⟩
      · exact Or.inl ⟨hpiff.2 hp, by rw [ho2]; exact hc⟩
      · exact Or.inr ⟨fun hp => hnp (hpiff.1 hp), by rw [ho2]; exact hc⟩

/-- C2: for a proposal id `p` held in the ledger with status `pending`
and not yet confirmed, at most one payment is ever accepted for `p`
(over any payment sequence the count of `p` in `confirmed_orders` never
exceeds one); in the run `pre ++ (cid0, pay0) :: post` where `pay0` is
the first payment referencing `p`, that payment is accepted — the
status becomes `accepted`, `p` is appended to `confirmed_orders` once,
and the confirmation message is returned — while every later payment
referencing `p` is answered with the agent's own error message. -/
theorem C2_handle_payment_single_acceptance
    (s0 : BusinessState) (p : String) (rec0 : ProposalRecord)
    (pre post : List (String × Payment)) (cid0 : String) (pay0 : Payment)
    (hrec : get_proposal s0.proposal_storage p = some rec0)
    (hpend : rec0.status = ProposalStatus.pending)
    (hcnt : s0.confirmed_orders.count p = 0)
    (hpay : pay0.proposal_message_id = p)
    (hpre : ∀ q ∈ pre, q.2.proposal_message_id ≠ p) :
    (∀ ps : List (String × Payment),
      (handle_payments s0 ps).1.confirmed_orders.count p ≤ 1)
    ∧ List.lookup p
        (handle_payments s0 (pre ++ (cid0, pay0) :: post)).1.proposal_storage
        = some { rec0 with status := ProposalStatus.accepted }
    ∧ (handle_payments s0
        (pre ++ (cid0, pay0) :: post)).1.confirmed_orders.count p = 1
    ∧ ∃ rsPost,
        (handle_payments s0 (pre ++ (cid0, pay0) :: post)).2
          = (handle_payments s0 pre).2
            ++ PaymentResponse.confirmation p rec0.proposal.total_price :: rsPost
        ∧ List.Forall₂ (fun (q : String × Payment) r =>
            q.2.proposal_message_id = p →
              r = PaymentResponse.proposalNotFoundError p) post rsPost := by
  have hinv0 : (pPending s0 p ∧ s0.confirmed_orders.count p = 0)
      ∨ (¬ pPending s0 p ∧ s0.confirmed_orders.count p ≤ 1) :=
    Or.inl ⟨⟨rec0, hrec, hpend⟩, hcnt⟩
  refine ⟨?_, ?_⟩
  · intro ps
    rcases handle_payments_count_invariant p ps s0 hinv0 with ⟨_, h0⟩ | ⟨_, h1⟩
    · omega
    · exact h1
  obtain ⟨hls1, hcs1⟩ := handle_payments_no_ref p pre s0 hpre
  have hget1 : get_proposal (handle_payments s0 pre).1.proposal_storage p
      = some rec0 := by
    unfold get_proposal
    rw [hls1]
    exact hrec
  have hstep := handle_payment_accept (handle_payments s0 pre).1 cid0 pay0 rec0
    (by rw [hpay]; exact hget1) hpend
  have hlook2 : List.lookup p
      (handle_payment (handle_payments s0 pre).1 cid0 pay0).1.proposal_storage
      = some { rec0 with status := ProposalStatus.accepted } := by
    rw [hstep]
    simp only [hpay, lookup_update_self]
    unfold get_proposal at hget1
    rw [hget1]
    rfl
  have hcnt2 : (handle_payment (handle_payments s0 pre).1 cid0
      pay0).1.confirmed_orders.count p = 1 := by
    rw [hstep]
    simp only [List.count_append, hpay]
    rw [hcnt] at hcs1
    have h1 : [p].count p = 1 := by simp
    omega
  have hnp2 : ¬ pPending
      (handle_payment (handle_payments s0 pre).1 cid0 pay0).1 p := by
    intro hpp
    obtain ⟨r2, hr2, hr2p⟩ := hpp
    unfold get_proposal at hr2
    rw [hlook2] at hr2
    simp at hr2
    rw [← hr2] at hr2p
    simp at hr2p
  obtain ⟨ht1, ht2, ht3⟩ := handle_payments_terminal p post _ hnp2
  have happ := handle_payments_append pre ((cid0, pay0) :: post) s0
  rw [happ, handle_payments_cons]
  refine ⟨?_, ?_, ?_⟩
  · simpa [ht1] using hlook2
  · simpa [ht2] using hcnt2
  · refine ⟨(handle_payments
        (handle_payment (handle_payments s0 pre).1 cid0 pay0).1 post).2, ?_, ht3⟩
    have hresp : (handle_payment (handle_payments s0 pre).1 cid0 pay0).2
        = PaymentResponse.confirmation p rec0.proposal.total_price := by
      rw [hstep, hpay]
    rw [hresp]

/-! #### Concrete double-payment scenario for C2 (spec §8, property 3) -/

/-- The pending ledger record for proposal "p1". -/
def c2Record : ProposalRecord :=
  { proposal := c1Proposal, business_id := "b1", customer_id := "c1",
    status := ProposalStatus.pending }

/-- Initial business state: one pending proposal, nothing confirmed. -/
def c2State : BusinessState :=
  { proposal_storage := [("p1", c2Record)], confirmed_orders := [] }

/-- Witness for C2: firing two payments at the same proposal honours
only the first. -/
theorem C2_handle_payment_witness :
    (get_proposal c2State.proposal_storage "p1" = some c2Record
      ∧ c2Record.status = ProposalStatus.pending
      ∧ c2State.confirmed_orders.count "p1" = 0
      ∧ c1Pay.proposal_message_id = "p1")
    ∧ ((∀ ps : List (String × Payment),
          (handle_payments c2State ps).1.confirmed_orders.count "p1" ≤ 1)
      ∧ List.lookup "p1" (handle_payments c2State
            ([] ++ ("c1", c1Pay) :: [("c9", c1Pay)])).1.proposal_storage
          = some { c2Record with status := ProposalStatus.accepted }
      ∧ (handle_payments c2State
            ([] ++ ("c1", c1Pay) :: [("c9", c1Pay)])).1.confirmed_orders.count
            "p1" = 1
      ∧ ∃ rsPost,
          (handle_payments c2State ([] ++ ("c1", c1Pay) :: [("c9", c1Pay)])).2
            = (handle_payments c2State []).2
              ++ PaymentResponse.confirmation "p1"
                  c2Record.proposal.total_price :: rsPost
          ∧ List.Forall₂ (fun (q : String × Payment) r =>
              q.2.proposal_message_id = "p1" →
                r = PaymentResponse.proposalNotFoundError "p1")
              [("c9", c1Pay)] rsPost) :=
  ⟨⟨rfl, rfl, rfl, rfl⟩,
    C2_handle_payment_single_acceptance c2State "p1" c2Record []
      [("c9", c1Pay)] "c1" c1Pay rfl rfl rfl rfl (by simp)⟩

/-! ### Message fetching (marketplace/agents/base.py, `fetch_messages`,
and the FetchMessages action) -/

/-- A message as received by an agent (`ReceivedMessage`). -/
structure ReceivedMessage where
  from_agent_id : String
  to_agent_id : String
  created_at : Nat
  message : Message
  index : Nat
deriving DecidableEq, Repr

/-- Response of the FetchMessages action (`FetchMessagesResponse`). -/
structure FetchMessagesResponse where
  messages : List ReceivedMessage
  has_more : Bool
deriving DecidableEq, Repr

/-- The `FetchMessages` action parameters
(marketplace/actions/actions.py). -/
structure FetchMessages where
  from_agent_id : Option String := none
  limit : Option Nat := none
  offset : Option Nat := none
  after : Option Nat := none
  after_index : Option Nat := none
deriving DecidableEq, Repr

/-- A send-message entry of the action log as the Message Directory
sees it: its assigned index, the recorded request and whether the send
failed. -/
structure LogEntry where
  index : Nat
  row : SendMessage
  is_error : Bool
deriving DecidableEq, Repr

/-- Whether a log entry is delivered for a given fetch: a successful
send addressed to the agent, passing the optional sender, timestamp and
`after_index` filters (`after_index` keeps only strictly larger
indices). -/
def fetch_entry_matches (fm : FetchMessages) (agent : String)
    (e : LogEntry) : Bool :=
  !e.is_error && (e.row.to_agent_id == agent)
    && (match fm.from_agent_id with
        | some s => e.row.from_agent_id == s
        | none => true)
    && (match fm.after with
        | some t => decide (t < e.row.created_at)
        | none => true)
    && (match fm.after_index with
        | some k => decide (k < e.index)
        | none => true)

/-- Modelled from the spec: `execute_fetch_messages`
(marketplace/protocol/fetch_messages.py is absent from the sources).
Per §4.2 the Message Directory returns, in ascending `index` order, the
successful `SendMessage` entries addressed to the agent — optionally
filtered by sender, timestamp and cursor — with offset/limit
pagination and a `has_more` flag for the remainder. -/
def execute_fetch_messages (fm : FetchMessages) (agent : String)
    (log : List LogEntry) : FetchMessagesResponse :=
  let entries := log.filter (fetch_entry_matches fm agent)
  let sorted := entries.insertionSort (fun a b => a.index ≤ b.index)
  let paged := sorted.drop (fm.offset.getD 0)
  let delivered := match fm.limit with
    | some l => paged.take l
    | none => paged
  { messages := delivered.map (fun e =>
      { from_agent_id := e.row.from_agent_id, to_agent_id := e.row.to_agent_id,
        created_at := e.row.created_at, message := e.row.message,
        index := e.index }),
    has_more := match fm.limit with
      | some l => decide (l < paged.length)
      | none => false }

/-- The per-agent message-tracking state of
`BaseSimpleMarketplaceAgent`: `last_fetch_index` and
`_seen_message_indexes`. -/
structure AgentMsgState where
  last_fetch_index : Option Nat
  seen_message_indexes : Finset Nat
deriving DecidableEq

/-- The result of `execute_action(FetchMessages())` as the client sees
it: an error with some content, or a parsed response. -/
inductive FetchActionResult where
  | error (content : String)
  | ok (response : FetchMessagesResponse)
deriving DecidableEq

/-- The `for message in response.messages` dedup loop of
`fetch_messages`: keep messages whose index is unseen, marking each
kept index as seen and bumping `last_fetch_index` to the maximum. -/
def fetch_filter_loop :
    List ReceivedMessage → AgentMsgState → List ReceivedMessage × AgentMsgState
  | [], st => ([], st)
  | m :: rest, st =>
    if m.index ∈ st.seen_message_indexes then
      fetch_filter_loop rest st
    else
      let newLast := match st.last_fetch_index with
        | none => some m.index
        | some l => if l < m.index then some m.index else some l
      let st2 : AgentMsgState :=
        { last_fetch_index := newLast,
          seen_message_indexes := insert m.index st.seen_message_indexes }
      let rec2 := fetch_filter_loop rest st2
      (m :: rec2.1, rec2.2)

/-- `BaseSimpleMarketplaceAgent.fetch_messages` as a state transition on
`(last_fetch_index, _seen_message_indexes)`: on an error result return
an empty response and leave the state untouched; otherwise filter the
response through the dedup loop. -/
def fetch_messages (st : AgentMsgState) (result : FetchActionResult) :
    FetchMessagesResponse × AgentMsgState :=
  match result with
  | FetchActionResult.error _ => ({ messages := [], has_more := false }, st)
  | FetchActionResult.ok response =>
    let filtered := fetch_filter_loop response.messages st
    ({ response with messages := filtered.1 }, filtered.2)

/-- A sequence of polls: run `fetch_messages` over consecutive action
results, collecting each poll's returned message list. -/
def fetch_messages_run (st : AgentMsgState) :
    List FetchActionResult → List (List ReceivedMessage) × AgentMsgState
  | [] => ([], st)
  | r :: rs =>
    let step := fetch_messages st r
    let rest := fetch_messages_run step.2 rs
    (step.1.messages :: rest.1, rest.2)

theorem fetch_filter_loop_nil (st : AgentMsgState) :
    fetch_filter_loop [] st = ([], st) := rfl

theorem fetch_filter_loop_cons_seen (m : ReceivedMessage)
    (rest : List ReceivedMessage) (st : AgentMsgState)
    (h : m.index ∈ st.seen_message_indexes) :
    fetch_filter_loop (m :: rest) st = fetch_filter_loop rest st := by
  simp [fetch_filter_loop, h]

theorem fetch_filter_loop_cons_new (m : ReceivedMessage)
    (rest : List ReceivedMessage) (st : AgentMsgState)
    (h : m.index ∉ st.seen_message_indexes) :
    fetch_filter_loop (m :: rest) st
      = ((m :: (fetch_filter_loop rest
            { last_fetch_index := match st.last_fetch_index with
                | none => some m.index
                | some l => if l < m.index then some m.index else some l,
              seen_message_indexes :=
                insert m.index st.seen_message_indexes }).1,
          (fetch_filter_loop rest
            { last_fetch_index := match st.last_fetch_index with
                | none => some m.index
                | some l => if l < m.index then some m.index else some l,
              seen_message_indexes :=
                insert m.index st.seen_message_indexes }).2)) := by
  simp [fetch_filter_loop, h]

theorem fetch_filter_loop_spec :
    ∀ (msgs : List ReceivedMessage) (st : AgentMsgState),
      ((fetch_filter_loop msgs st).1.map (fun m => m.index)).Nodup
      ∧ (∀ m ∈ (fetch_filter_loop msgs st).1,
          m.index ∉ st.seen_message_indexes)
      ∧ st.seen_message_indexes
          ⊆ (fetch_filter_loop msgs st).2.seen_message_indexes
      ∧ (∀ m ∈ (fetch_filter_loop msgs st).1,
          m.index ∈ (fetch_filter_loop msgs st).2.seen_message_indexes)
      ∧ (∀ l, st.last_fetch_index = some l →
          ∃ l2, (fetch_filter_loop msgs st).2.last_fetch_index = some l2
            ∧ l ≤ l2)
      ∧ (∀ m ∈ (fetch_filter_loop msgs st).1,
          ∃ l2, (fetch_filter_loop msgs st).2.last_fetch_index = some l2
            ∧ m.index ≤ l2) := by
  intro msgs
  induction msgs with
  | nil =>
    intro st
    rw [fetch_filter_loop_nil]
    exact ⟨List.nodup_nil, by simp, le_refl _, by simp, fun l h => ⟨l, h, le_rfl⟩,
      by simp⟩
  | cons m rest ih =>
    intro st
    by_cases hseen : m.index ∈ st.seen_message_indexes
    · rw [fetch_filter_loop_cons_seen m rest st hseen]
      exact ih st
    · rw [fetch_filter_loop_cons_new m rest st hseen]
      set st2 : AgentMsgState :=
        { last_fetch_index := match st.last_fetch_index with
            | none => some m.index
            | some l => if l < m.index then some m.index else some l,
          seen_message_indexes := insert m.index st.seen_message_indexes }
        with hst2
      obtain ⟨ih1, ih2, ih3, ih4, ih5, ih6⟩ := ih st2
      have hmem2 : m.index ∈ st2.seen_message_indexes := by
        rw [hst2]
        exact Finset.mem_insert_self _ _
      have hsub2 : st.seen_message_indexes ⊆ st2.seen_message_indexes := by
        rw [hst2]
        exact Finset.subset_insert _ _
      have hlast2 : ∃ v, st2.last_fetch_index = some v ∧ m.index ≤ v := by
        rw [hst2]
        rcases st.last_fetch_index with _ | l
        · exact ⟨m.index, rfl, le_rfl⟩
        · by_cases hl : l < m.index
          · exact ⟨m.index, by simp [hl], le_rfl⟩
          · exact ⟨l, by simp [hl], by omega⟩
      refine ⟨?_, ?_, ?_, ?_, ?_, ?_⟩
      · rw [List.map_cons, List.nodup_cons]
        refine ⟨?_, ih1⟩
        intro hmem
        rw [List.mem_map] at hmem
        obtain ⟨x, hx, hxi⟩ := hmem
        exact ih2 x hx (hxi ▸ hmem2)
      · intro x hx
        rcases List.mem_cons.1 hx with hx | hx
        · rw [hx]; exact hseen
        · exact fun hc => ih2 x hx (hsub2 hc)
      · exact le_trans hsub2 ih3
      · intro x hx
        rcases List.mem_cons.1 hx with hx | hx
        · rw [hx]; exact ih3 hmem2
        · exact ih4 x hx
      · intro l hl
        obtain ⟨v, hv, hmv⟩ := hlast2
        have hlev : l ≤ v := by
          rw [hst2] at hv
          rw [hl] at hv
          by_cases hcmp : l < m.index
          · simp [hcmp] at hv
            omega
          · simp [hcmp] at hv
            omega
        obtain ⟨l2, hl2, hvl2⟩ := ih5 v hv
        exact ⟨l2, hl2, by omega⟩
      · intro x hx
        rcases List.mem_cons.1 hx with hx | hx
        · obtain ⟨v, hv, hmv⟩ := hlast2
          obtain ⟨l2, hl2, hvl2⟩ := ih5 v hv
          exact ⟨l2, hl2, by rw [hx]; omega⟩
        · exact ih6 x hx

theorem fetch_messages_run_spec :
    ∀ (rs : List FetchActionResult) (st : AgentMsgState),
      (((fetch_messages_run st rs).1.flatten).map (fun m => m.index)).Nodup
      ∧ (∀ m ∈ (fetch_messages_run st rs).1.flatten,
          m.index ∉ st.seen_message_indexes)
      ∧ st.seen_message_indexes
          ⊆ (fetch_messages_run st rs).2.seen_message_indexes
      ∧ (∀ m ∈ (fetch_messages_run st rs).1.flatten,
          m.index ∈ (fetch_messages_run st rs).2.seen_message_indexes)
      ∧ (∀ l, st.last_fetch_index = some l →
          ∃ l2, (fetch_messages_run st rs).2.last_fetch_index = some l2
            ∧ l ≤ l2)
      ∧ (∀ m ∈ (fetch_messages_run st rs).1.flatten,
          ∃ l2, (fetch_messages_run st rs).2.last_fetch_index = some l2
            ∧ m.index ≤ l2) := by
  intro rs
  induction rs with
  | nil =>
    intro st
    have hnil : fetch_messages_run st [] = ([], st) := rfl
    rw [hnil]
    exact ⟨List.nodup_nil, by simp, Finset.Subset.refl _, by simp,
      fun l h => ⟨l, h, le_rfl⟩, by simp⟩
  | cons r rest ih =>
    intro st
    rcases r with c | resp
    · have hstep : fetch_messages st (FetchActionResult.error c)
          = ({ messages := [], has_more := false }, st) := rfl
      have hrun : fetch_messages_run st (FetchActionResult.error c :: rest)
          = (([] : List ReceivedMessage) :: (fetch_messages_run st rest).1,
             (fetch_messages_run st rest).2) := by
        rw [fetch_messages_run, hstep]
      rw [hrun]
      obtain ⟨ih1, ih2, ih3, ih4, ih5, ih6⟩ := ih st
      exact ⟨by simpa using ih1, by simpa using ih2, ih3, by simpa using ih4,
        ih5, by simpa using ih6⟩
    · obtain ⟨f1, f2, f3, f4, f5, f6⟩ := fetch_filter_loop_spec resp.messages st
      have hrun : fetch_messages_run st (FetchActionResult.ok resp :: rest)
          = ((fetch_filter_loop resp.messages st).1
              :: (fetch_messages_run (fetch_filter_loop resp.messages st).2
                  rest).1,
             (fetch_messages_run (fetch_filter_loop resp.messages st).2
               rest).2) := by
        rw [fetch_messages_run]
        rfl
      rw [hrun]
      obtain ⟨ih1, ih2, ih3, ih4, ih5, ih6⟩ :=
        ih (fetch_filter_loop resp.messages st).2
      simp only [List.flatten_cons, List.map_append]
      refine ⟨?_, ?_, ?_, ?_, ?_, ?_⟩
      · rw [List.nodup_append]
        refine ⟨f1, ih1, ?_⟩
        intro a ha hb
        rw [List.mem_map] at ha hb
        obtain ⟨x, hx, hxa⟩ := ha
        obtain ⟨y, hy, hya⟩ := hb
        exact ih2 y hy (by rw [hya, ← hxa]; exact f4 x hx)
      · intro x hx
        rcases List.mem_append.1 hx with hx | hx
        · exact f2 x hx
        · exact fun hc => ih2 x hx (f3 hc)
      · exact le_trans f3 ih3
      · intro x hx
        rcases List.mem_append.1 hx with hx | hx
        · exact ih3 (f4 x hx)
        · exact ih4 x hx
      · intro l hl
        obtain ⟨v, hv, hlv⟩ := f5 l hl
        obtain ⟨l2, hl2, hvl2⟩ := ih5 v hv
        exact ⟨l2, hl2, by omega⟩
      · intro x hx
        rcases List.mem_append.1 hx with hx | hx
        · obtain ⟨v, hv, hxv⟩ := f6 x hx
          obtain ⟨l2, hl2, hvl2⟩ := ih5 v hv
          exact ⟨l2, hl2, by omega⟩
        · exact ih6 x hx

/-- C4: across any sequence of `fetch_messages` polls no message entry
is returned twice — the returned indexes are globally distinct, every
returned index is tracked in `_seen_message_indexes` and is bounded by
the tracked `last_fetch_index` — and a fetch whose `after_index` is `k`
never returns an entry with index ≤ k. -/
theorem C4_fetch_messages_dedup_and_cursor :
    (∀ (st : AgentMsgState) (rs : List FetchActionResult),
      (((fetch_messages_run st rs).1.flatten).map (fun m => m.index)).Nodup
      ∧ (∀ m ∈ (fetch_messages_run st rs).1.flatten,
          m.index ∈ (fetch_messages_run st rs).2.seen_message_indexes
          ∧ ∃ l2, (fetch_messages_run st rs).2.last_fetch_index = some l2
              ∧ m.index ≤ l2))
    ∧ (∀ (fm : FetchMessages) (agent : String) (log : List LogEntry) (k : Nat),
        fm.after_index = some k →
        ∀ m ∈ (execute_fetch_messages fm agent log).messages, k < m.index) := by
  constructor
  · intro st rs
    obtain ⟨h1, _, _, h4, _, h6⟩ := fetch_messages_run_spec rs st
    exact ⟨h1, fun m hm => ⟨h4 m hm, h6 m hm⟩⟩
  · intro fm agent log k hk m hm
    unfold execute_fetch_messages at hm
    simp only [List.mem_map] at hm
    obtain ⟨e, he, hem⟩ := hm
    have hent : e ∈ (log.filter (fetch_entry_matches fm agent)).insertionSort
        (fun a b => a.index ≤ b.index) := by
      rcases hll : fm.limit with _ | l
      · rw [hll] at he
        exact List.drop_subset _ _ he
      · rw [hll] at he
        exact List.drop_subset _ _ (List.take_subset _ _ he)
    have hfil : e ∈ log.filter (fetch_entry_matches fm agent) :=
      (List.perm_insertionSort _ _).subset hent
    have hmatch := List.of_mem_filter hfil
    unfold fetch_entry_matches at hmatch
    rw [hk] at hmatch
    simp only [Bool.and_eq_true, decide_eq_true_eq] at hmatch
    rw [← hem]
    exact hmatch.2

/-- The recorded send-message request for the C4 witness log. -/
def c4Row (i : Nat) : SendMessage :=
  { from_agent_id := "b1", to_agent_id := "a", created_at := i,
    message := Message.text { content := "hello" } }

/-- A delivered log entry for the C4 witness. -/
def c4Entry (i : Nat) : LogEntry :=
  { index := i, row := c4Row i, is_error := false }

/-- A received message with a given index for the C4 witness. -/
def c4Msg (i : Nat) : ReceivedMessage :=
  { from_agent_id := "b1", to_agent_id := "a", created_at := i,
    message := Message.text { content := "hello" }, index := i }

/-- The fresh client state of the C4 witness. -/
def c4State : AgentMsgState :=
  { last_fetch_index := none, seen_message_indexes := ∅ }

/-- Two overlapping poll results for the C4 witness. -/
def c4Results : List FetchActionResult :=
  [FetchActionResult.ok { messages := [c4Msg 1, c4Msg 2], has_more := false },
   FetchActionResult.ok { messages := [c4Msg 2, c4Msg 3], has_more := false }]

/-- A fetch with cursor `after_index = 1` for the C4 witness. -/
def c4Fetch : FetchMessages := { after_index := some 1 }

/-- Witness for C4 at a concrete overlapping two-poll run and a
concrete cursor fetch. -/
theorem C4_fetch_messages_witness :
    ((((fetch_messages_run c4State c4Results).1.flatten).map
        (fun m => m.index)).Nodup
      ∧ (∀ m ∈ (fetch_messages_run c4State c4Results).1.flatten,
          m.index ∈ (fetch_messages_run c4State c4Results).2.seen_message_indexes
          ∧ ∃ l2, (fetch_messages_run c4State
                c4Results).2.last_fetch_index = some l2
              ∧ m.index ≤ l2))
    ∧ (∀ m ∈ (execute_fetch_messages c4Fetch "a"
          [c4Entry 1, c4Entry 2, c4Entry 3]).messages, 1 < m.index)
    ∧ (fetch_messages_run c4State c4Results).1 = [[c4Msg 1, c4Msg 2], [c4Msg 3]]
    ∧ (execute_fetch_messages c4Fetch "a"
        [c4Entry 1, c4Entry 2, c4Entry 3]).messages.map (fun m => m.index)
        = [2, 3] :=
  ⟨C4_fetch_messages_dedup_and_cursor.1 c4State c4Results,
    C4_fetch_messages_dedup_and_cursor.2 c4Fetch "a"
      [c4Entry 1, c4Entry 2, c4Entry 3] 1 rfl,
    by decide, by decide⟩

/-- C10: when the underlying FetchMessages action yields an error
result, `fetch_messages` returns `FetchMessagesResponse(messages=[],
has_more=False)` and leaves `last_fetch_index` and
`_seen_message_indexes` unchanged. -/
theorem C10_fetch_messages_error_path (st : AgentMsgState) (c : String) :
    (fetch_messages st (FetchActionResult.error c)).1
        = { messages := [], has_more := false }
    ∧ (fetch_messages st (FetchActionResult.error c)).2.last_fetch_index
        = st.last_fetch_index
    ∧ (fetch_messages st (FetchActionResult.error c)).2.seen_message_indexes
        = st.seen_message_indexes :=
  ⟨rfl, rfl, rfl⟩

/-! ### C7: database converter round trip (platform/database/converter.py)

`DatabaseConverter` copies the `agents`, `actions` and `logs` tables from the
PostgreSQL source to a fresh SQLite file and then verifies the copy.  A table
row carries an id, a creation timestamp, a payload and an optional integer
index (`row_index` on PostgreSQL, `rowid` on SQLite). -/

structure Row (α : Type) where
  id : String
  created_at : Nat
  data : α
  index : Option Nat
deriving DecidableEq, Repr

/-- The sort key `lambda r: r.index if r.index is not None else 0` used by the
copy and verification steps. -/
def rowKey {α : Type} (r : Row α) : Nat := r.index.getD 0

def rowLe {α : Type} (a b : Row α) : Prop := rowKey a ≤ rowKey b

instance {α : Type} : DecidableRel (@rowLe α) := fun _ _ => Nat.decLe _ _

instance {α : Type} : IsTotal (Row α) rowLe := ⟨fun _ _ => Nat.le_total _ _⟩

instance {α : Type} : IsTrans (Row α) rowLe := ⟨fun _ _ _ => Nat.le_trans⟩

/-- `rows.sort(key=lambda r: r.index if r.index is not None else 0)` —
Python's stable sort, modelled by insertion sort on the same key. -/
def sortRows {α : Type} (rows : List (Row α)) : List (Row α) :=
  rows.insertionSort rowLe

/-- Modelled from the spec: `create_many` on the SQLite target appends the
given rows in order and auto-assigns rowids `1, 2, …` in insertion order (the
`platform/database/sqlite` package is absent from the sources; §6 describes the
portable backend's auto-assigned, strictly increasing per-table index). -/
def create_many {α : Type} (rows : List (Row α)) : List (Row α) :=
  (List.enumFrom 1 rows).map (fun p => { p.2 with index := some p.1 })

/-- `DatabaseConverter._copy_agents` / `_copy_actions` / `_copy_logs`: fetch
all rows, sort them by index (None ↦ 0), strip the index, and bulk-insert the
result into the target, which auto-assigns rowids. -/
def copy_table {α : Type} (source : List (Row α)) : List (Row α) :=
  create_many ((sortRows source).map (fun r => { r with index := none }))

/-- The row-by-row comparison loop of `DatabaseConverter._verify_table`:
`zip(source_rows, target_rows, strict=True)` over the two sorted lists,
raising `ValueError` on the first index or id mismatch (`strict=True` also
raises if the lengths differ, though the earlier count check rules that out).
Raising is modelled by `Except.error`. -/
def verify_pairs {α : Type} (table_name : String) :
    List (Row α) → List (Row α) → Except String Unit
  | [], [] => Except.ok ()
  | s :: ss, t :: ts =>
    if s.index ≠ t.index then
      Except.error (table_name ++ ": Index mismatch for row with id=" ++ s.id)
    else if s.id ≠ t.id then
      Except.error (table_name ++ ": ID mismatch")
    else verify_pairs table_name ss ts
  | _, _ => Except.error (table_name ++ ": zip strict length mismatch")

/-- `DatabaseConverter._verify_table`: raise `ValueError` on a row-count
mismatch, then sort both sides by index and compare index and id row by
row. -/
def verify_table {α : Type} (table_name : String)
    (source target : List (Row α)) : Except String Unit :=
  if source.length ≠ target.length then
    Except.error (table_name ++ ": Row count mismatch")
  else verify_pairs table_name (sortRows source) (sortRows target)

/-- The three tables of one experiment schema, with their payload types. -/
structure ExperimentTables (α β γ : Type) where
  agents : List (Row α)
  actions : List (Row β)
  logs : List (Row γ)
deriving DecidableEq

/-- `DatabaseConverter.convert`: copy agents, actions and logs into the fresh
SQLite database in that order, then `_verify_conversion` checks each table,
raising `ValueError` (modelled by `Except.error`) on the first mismatch. -/
def convert {α β γ : Type} (source : ExperimentTables α β γ) :
    Except String (ExperimentTables α β γ) :=
  match verify_table "agents" source.agents (copy_table source.agents) with
  | Except.error e => Except.error e
  | Except.ok _ =>
    match verify_table "actions" source.actions (copy_table source.actions) with
    | Except.error e => Except.error e
    | Except.ok _ =>
      match verify_table "logs" source.logs (copy_table source.logs) with
      | Except.error e => Except.error e
      | Except.ok _ =>
        Except.ok { agents := copy_table source.agents
                    actions := copy_table source.actions
                    logs := copy_table source.logs }

lemma verify_pairs_ok_iff {α : Type} (name : String) :
    ∀ (s t : List (Row α)), verify_pairs name s t = Except.ok () ↔
      List.Forall₂ (fun a b => a.index = b.index ∧ a.id = b.id) s t
  | [], [] => by simp [verify_pairs]
  | [], _ :: _ => by simp [verify_pairs]
  | _ :: _, [] => by simp [verify_pairs]
  | s :: ss, t :: ts => by
    by_cases hidx : s.index = t.index
    · by_cases hid : s.id = t.id
      · simp [verify_pairs, hidx, hid, verify_pairs_ok_iff name ss ts]
      · simp [verify_pairs, hidx, hid]
    · simp [verify_pairs, hidx]

lemma forall₂_exists_mem {α β : Type} {R : α → β → Prop}
    {l₁ : List α} {l₂ : List β} (h : List.Forall₂ R l₁ l₂) :
    ∀ a ∈ l₁, ∃ b ∈ l₂, R a b := by
  induction h with
  | nil => intro a ha; cases ha
  | cons hR _ ih =>
    intro a ha
    rw [List.mem_cons] at ha
    rcases ha with ha | ha
    · exact ⟨_, List.mem_cons_self _ _, ha ▸ hR⟩
    · obtain ⟨b, hb, hRb⟩ := ih a ha
      exact ⟨b, List.mem_cons_of_mem _ hb, hRb⟩

lemma forall₂_index_map {α : Type} {l₁ l₂ : List (Row α)}
    (h : List.Forall₂
      (fun a b => a.index = b.index ∧ a.id = b.id ∧ a.data = b.data) l₁ l₂) :
    l₁.map (fun r => r.index) = l₂.map (fun r => r.index) := by
  induction h with
  | nil => rfl
  | cons hR _ ih => simp only [List.map_cons, hR.1, ih]

lemma create_many_spec {α : Type} :
    ∀ (l : List (Row α)) (k : Nat),
      l.map (fun r => r.index)
        = (List.range l.length).map (fun i => some (i + k)) →
      List.Forall₂
        (fun a b => a.index = b.index ∧ a.id = b.id ∧ a.data = b.data) l
        ((List.enumFrom k (l.map (fun r => { r with index := none }))).map
          (fun p => { p.2 with index := some p.1 }))
  | [], _, _ => by simp
  | r :: t, k, h => by
    rw [List.map_cons, List.length_cons, List.range_succ_eq_map,
      List.map_cons, List.map_map] at h
    have hr : r.index = some (0 + k) := (List.cons.injEq _ _ _ _ ▸ h).1
    have ht : t.map (fun r => r.index)
        = (List.range t.length).map ((fun i => some (i + k)) ∘ Nat.succ) :=
      (List.cons.injEq _ _ _ _ ▸ h).2
    have hshift : ((fun i => some (i + k)) ∘ Nat.succ)
        = (fun i => some (i + (k + 1))) := by
      funext i
      show some (i.succ + k) = some (i + (k + 1))
      congr 1
      omega
    rw [hshift] at ht
    refine List.Forall₂.cons ?_ (create_many_spec t (k + 1) ht)
    refine ⟨?_, rfl, rfl⟩
    rw [hr, Nat.zero_add]

lemma copy_table_spec {α : Type} (rows : List (Row α))
    (h : (rows.map (fun r => r.index)).Perm
        ((List.range rows.length).map (fun i => some (i + 1)))) :
    (copy_table rows).length = rows.length
    ∧ List.Forall₂
        (fun a b => a.index = b.index ∧ a.id = b.id ∧ a.data = b.data)
        (sortRows rows) (copy_table rows)
    ∧ sortRows (copy_table rows) = copy_table rows := by
  have hperm_sorted : (sortRows rows).Perm rows := List.perm_insertionSort rowLe rows
  have hlen : (sortRows rows).length = rows.length := hperm_sorted.length_eq
  have hkeys : (sortRows rows).map rowKey
      = (List.range rows.length).map (fun i => i + 1) := by
    have h1 : ((sortRows rows).map rowKey).Perm (rows.map rowKey) :=
      hperm_sorted.map rowKey
    have h2 : (rows.map (fun r => r.index)).map (fun o => o.getD 0)
        = rows.map rowKey := by
      rw [List.map_map]; rfl
    have h3 : ((List.range rows.length).map
          (fun i => some (i + 1))).map (fun o => o.getD 0)
        = (List.range rows.length).map (fun i => i + 1) := by
      rw [List.map_map]; rfl
    have h4 := h.map (fun o => o.getD 0)
    rw [h2, h3] at h4
    have hp : (((sortRows rows).map rowKey) : List ℕ).Perm
        ((List.range rows.length).map (fun i => i + 1)) := h1.trans h4
    have hs1 : List.Sorted (· ≤ ·) ((sortRows rows).map rowKey) :=
      List.pairwise_map.mpr
        ((List.sorted_insertionSort rowLe rows).imp fun hab => hab)
    have hs2 : List.Sorted (· ≤ ·)
        ((List.range rows.length).map (fun i => i + 1)) :=
      List.pairwise_map.mpr
        ((List.pairwise_lt_range _).imp fun hab => Nat.succ_le_succ hab.le)
    exact List.eq_of_perm_of_sorted hp hs1 hs2
  have hindex : (sortRows rows).map (fun r => r.index)
      = (List.range rows.length).map (fun i => some (i + 1)) := by
    have hsome : ∀ r ∈ sortRows rows, r.index = some (rowKey r) := by
      intro r hr
      have hmem : r.index ∈ rows.map (fun r => r.index) :=
        List.mem_map_of_mem _ (hperm_sorted.subset hr)
      have hmem2 : r.index
          ∈ (List.range rows.length).map (fun i => some (i + 1)) :=
        h.subset hmem
      obtain ⟨i, _, hi⟩ := List.mem_map.mp hmem2
      have hidx : r.index = some (i + 1) := hi.symm
      rw [hidx]
      unfold rowKey
      rw [hidx]
      rfl
    have h4 : (sortRows rows).map (fun r => r.index)
        = (sortRows rows).map (fun r => some (rowKey r)) :=
      List.map_congr_left hsome
    have h5 : (sortRows rows).map (fun r => some (rowKey r))
        = ((sortRows rows).map rowKey).map some := by
      rw [List.map_map]
      rfl
    rw [h4, h5, hkeys, List.map_map]
    rfl
  have hfa : List.Forall₂
      (fun a b => a.index = b.index ∧ a.id = b.id ∧ a.data = b.data)
      (sortRows rows) (copy_table rows) := by
    have := create_many_spec (sortRows rows) 1 (by rw [hlen]; exact hindex)
    exact this
  have hlen_copy : (copy_table rows).length = rows.length := by
    rw [← hfa.length_eq, hlen]
  have hidx_copy : (copy_table rows).map (fun r => r.index)
      = (List.range rows.length).map (fun i => some (i + 1)) := by
    rw [← forall₂_index_map hfa, hindex]
  have hkeys_copy : (copy_table rows).map rowKey
      = (List.range rows.length).map (fun i => i + 1) := by
    have h6 := congrArg (List.map (fun o : Option Nat => o.getD 0)) hidx_copy
    rw [List.map_map, List.map_map] at h6
    exact h6
  have hsorted_copy : sortRows (copy_table rows) = copy_table rows := by
    apply List.Sorted.insertionSort_eq
    have h7 : ((copy_table rows).map rowKey).Pairwise (· ≤ ·) := by
      rw [hkeys_copy]
      exact List.pairwise_map.mpr
        ((List.pairwise_lt_range _).imp fun hab => Nat.succ_le_succ hab.le)
    have h8 : (copy_table rows).Pairwise (fun a b => rowKey a ≤ rowKey b) :=
      List.pairwise_map.mp h7
    exact h8
  exact ⟨hlen_copy, hfa, hsorted_copy⟩

lemma verify_table_copy_ok {α : Type} (name : String) (rows : List (Row α))
    (h : (rows.map (fun r => r.index)).Perm
        ((List.range rows.length).map (fun i => some (i + 1)))) :
    verify_table name rows (copy_table rows) = Except.ok () := by
  obtain ⟨hlen, hfa, hsorted⟩ := copy_table_spec rows h
  unfold verify_table
  rw [if_neg (not_ne_iff.mpr hlen.symm), hsorted]
  exact (verify_pairs_ok_iff name _ _).mpr
    (hfa.imp fun _ _ hab => ⟨hab.1, hab.2.1⟩)

/-- C7: converting a source experiment database to the portable backend — under
the assumption that each source table's indices are a permutation of
`1, …, N` (as PostgreSQL `row_index` assigns them) — copies the agents,
actions and logs tables in ascending index order, so that each target table
has exactly the same number of rows as its source with identical ids, data and
indices; `convert` then verifies successfully and returns the copied tables;
and `_verify_table` succeeds precisely when the row counts agree and, after
sorting both sides by index, every row pair agrees on index and id — i.e. it
raises `ValueError` whenever any row count, per-row index or per-row id
differs. -/
theorem C7_convert_round_trip {α β γ : Type}
    (source : ExperimentTables α β γ)
    (ha : (source.agents.map (fun r => r.index)).Perm
        ((List.range source.agents.length).map (fun i => some (i + 1))))
    (hb : (source.actions.map (fun r => r.index)).Perm
        ((List.range source.actions.length).map (fun i => some (i + 1))))
    (hc : (source.logs.map (fun r => r.index)).Perm
        ((List.range source.logs.length).map (fun i => some (i + 1)))) :
    ((copy_table source.agents).length = source.agents.length
      ∧ ∀ r ∈ source.agents, ∃ r2 ∈ copy_table source.agents,
          r2.index = r.index ∧ r2.id = r.id ∧ r2.data = r.data)
    ∧ ((copy_table source.actions).length = source.actions.length
      ∧ ∀ r ∈ source.actions, ∃ r2 ∈ copy_table source.actions,
          r2.index = r.index ∧ r2.id = r.id ∧ r2.data = r.data)
    ∧ ((copy_table source.logs).length = source.logs.length
      ∧ ∀ r ∈ source.logs, ∃ r2 ∈ copy_table source.logs,
          r2.index = r.index ∧ r2.id = r.id ∧ r2.data = r.data)
    ∧ convert source = Except.ok
        { agents := copy_table source.agents
          actions := copy_table source.actions
          logs := copy_table source.logs }
    ∧ (∀ (δ : Type) (name : String) (s t : List (Row δ)),
        verify_table name s t = Except.ok () ↔
          s.length = t.length
            ∧ List.Forall₂ (fun a b => a.index = b.index ∧ a.id = b.id)
                (sortRows s) (sortRows t)) := by
  have hmem : ∀ (δ : Type) (rows : List (Row δ)),
      (rows.map (fun r => r.index)).Perm
        ((List.range rows.length).map (fun i => some (i + 1))) →
      (copy_table rows).length = rows.length
        ∧ ∀ r ∈ rows, ∃ r2 ∈ copy_table rows,
            r2.index = r.index ∧ r2.id = r.id ∧ r2.data = r.data := by
    intro δ rows h
    obtain ⟨hlen, hfa, _⟩ := copy_table_spec rows h
    refine ⟨hlen, ?_⟩
    intro r hr
    have hr2 : r ∈ sortRows rows :=
      (List.perm_insertionSort rowLe rows).symm.subset hr
    obtain ⟨r2, hr2mem, hR⟩ := forall₂_exists_mem hfa r hr2
    exact ⟨r2, hr2mem, hR.1.symm, hR.2.1.symm, hR.2.2.symm⟩
  refine ⟨hmem α source.agents ha, hmem β source.actions hb,
    hmem γ source.logs hc, ?_, ?_⟩
  · unfold convert
    rw [verify_table_copy_ok "agents" source.agents ha,
      verify_table_copy_ok "actions" source.actions hb,
      verify_table_copy_ok "logs" source.logs hc]
  · intro δ name s t
    unfold verify_table
    by_cases hlen : s.length = t.length
    · rw [if_neg (not_ne_iff.mpr hlen)]
      rw [verify_pairs_ok_iff]
      exact ⟨fun hfa => ⟨hlen, hfa⟩, fun hfa => hfa.2⟩
    · rw [if_pos hlen]
      simp only [reduceCtorEq, false_iff, not_and]
      intro hlen2
      exact absurd hlen2 hlen

def c7Agent1 : Row Nat := { id := "a1", created_at := 0, data := 10, index := some 2 }

def c7Agent2 : Row Nat := { id := "a2", created_at := 0, data := 20, index := some 1 }

def c7Action1 : Row Nat := { id := "x1", created_at := 5, data := 30, index := some 1 }

def c7Source : ExperimentTables Nat Nat Nat :=
  { agents := [c7Agent1, c7Agent2], actions := [c7Action1], logs := [] }

/-- C7 witness: a concrete source database with two agents stored out of index
order, one action and no logs converts successfully, and the copied agents
table lists the rows in ascending index order with ids and indices
preserved. -/
theorem C7_convert_round_trip_witness :
    convert c7Source = Except.ok
      { agents := copy_table c7Source.agents
        actions := copy_table c7Source.actions
        logs := copy_table c7Source.logs }
    ∧ (copy_table c7Source.agents).map (fun r => (r.id, r.index))
        = [("a2", some 1), ("a1", some 2)] :=
  ⟨(C7_convert_round_trip c7Source (by decide) (by decide) (by decide)).2.2.2.1,
    by decide⟩

/-! ### C8: proposal audit (experiments/run_audit.py)

`MarketplaceAudit.audit_proposals` walks every order proposal, locates the
recipient customer's most recent LLM call log, and classifies the proposal as
found or missing according to a substring search for the proposal id over the
log's serialized prompt and response. -/

/-- Python's `pid in hay` exact-substring test on strings. -/
def strContains (hay pid : String) : Bool :=
  decide (pid.toList <:+: hay.toList)

/-- Modelled from the spec: the prompt of an `LLMCallLog`
(`marketplace/llm/base.py` is absent from the sources) is either a plain
string or a message sequence; the audit's search serializes each message's
"content" entry to a string (§4.7: "substring search over serialized
prompt"). -/
inductive LLMPrompt where
  | str (s : String)
  | messages (contents : List String)
deriving DecidableEq, Repr

/-- Modelled from the spec: the response of an `LLMCallLog` is either a plain
string or a structured object, which the audit serializes with `json.dumps`
before searching; we carry the serialized form. -/
inductive LLMResponse where
  | str (s : String)
  | obj (serialized : String)
deriving DecidableEq, Repr

/-- Modelled from the spec: the fields of `LLMCallLog` the audit reads
(`model`, `provider` and `metadata` only feed the diagnostic bundle and do not
affect classification). -/
structure LLMCallLog where
  prompt : LLMPrompt
  response : LLMResponse
deriving DecidableEq, Repr

/-- One parsed LLM-call log row as `get_last_llm_log_for_customer` sees it:
the database row index, the `agent_id` from the log metadata, and the parsed
`LLMCallLog`. -/
structure LogRow where
  index : Nat
  agent_id : Option String
  log : LLMCallLog
deriving DecidableEq, Repr

/-- `MarketplaceAudit.check_proposal_in_log`: search for the proposal id in
the prompt (the string itself, or each message's content), then in the
response (the string itself, or its JSON serialization). -/
def check_proposal_in_log (proposal_id : String) (llm_log : LLMCallLog) : Bool :=
  (match llm_log.prompt with
    | LLMPrompt.str s => strContains s proposal_id
    | LLMPrompt.messages cs => cs.any (fun c => strContains c proposal_id))
  || (match llm_log.response with
    | LLMResponse.str s => strContains s proposal_id
    | LLMResponse.obj s => strContains s proposal_id)

/-- `MarketplaceAudit.get_last_llm_log_for_customer`: keep the rows whose
metadata `agent_id` equals the customer id, sort them by row index (Python's
stable sort) and return the last one, or `None` when there are none. -/
def get_last_llm_log_for_customer (logs : List LogRow) (customer_id : String) :
    Option LLMCallLog :=
  match ((logs.filter (fun r => decide (r.agent_id = some customer_id))).insertionSort
      (fun a b => a.index ≤ b.index)).getLast? with
  | none => none
  | some r => some r.log

/-- The slice of `MarketplaceAudit` state that `audit_proposals` reads:
the collected proposals, the `proposal_metadata` map
`proposal_id ↦ (business_id, customer_id, timestamp)`, and the LLM log
rows. -/
structure AuditState where
  order_proposals : List OrderProposal
  proposal_metadata : List (String × (String × String × String))
  logs : List LogRow

/-- One entry of `results["missing_details"]`.  Only the identifying fields
common to both append sites are modelled; the diagnostic bundle (prompt,
response, timeline, fetch history, …) recorded in the not-found branch does
not affect classification. -/
structure MissingDetail where
  proposal_id : String
  business_id : String
  customer_id : String
  reason : String
deriving DecidableEq, Repr

/-- The audit counters of `results` that the claim is about. -/
structure AuditResults where
  total_proposals : Nat
  proposals_found : Nat
  proposals_missing : Nat
  customers_without_logs : List String
  missing_details : List MissingDetail
deriving DecidableEq, Repr

/-- One iteration of the `for proposal in self.order_proposals` loop of
`audit_proposals`: skip proposals without metadata; count a customer with no
LLM logs as missing with reason "No LLM logs found"; otherwise classify by
`check_proposal_in_log` against the customer's last log. -/
def audit_step (st : AuditState) (r : AuditResults) (proposal : OrderProposal) :
    AuditResults :=
  match st.proposal_metadata.lookup proposal.id with
  | none => r
  | some (business_id, customer_id, _) =>
    match get_last_llm_log_for_customer st.logs customer_id with
    | none =>
      { r with
        proposals_missing := r.proposals_missing + 1
        customers_without_logs := r.customers_without_logs ++ [customer_id]
        missing_details := r.missing_details
          ++ [{ proposal_id := proposal.id, business_id := business_id
                customer_id := customer_id, reason := "No LLM logs found" }] }
    | some llm_log =>
      if check_proposal_in_log proposal.id llm_log then
        { r with proposals_found := r.proposals_found + 1 }
      else
        { r with
          proposals_missing := r.proposals_missing + 1
          missing_details := r.missing_details
            ++ [{ proposal_id := proposal.id, business_id := business_id
                  customer_id := customer_id
                  reason := "Proposal ID not found in last LLM log" }] }

/-- `MarketplaceAudit.audit_proposals` (the proposal-classification loop; the
subsequent per-customer utility statistics do not touch these counters). -/
def audit_proposals (st : AuditState) : AuditResults :=
  st.order_proposals.foldl (audit_step st)
    { total_proposals := st.order_proposals.length
      proposals_found := 0
      proposals_missing := 0
      customers_without_logs := []
      missing_details := [] }

/-- The recipient customer recorded in `proposal_metadata` for a proposal. -/
def customerOf (st : AuditState) (p : OrderProposal) : String :=
  match st.proposal_metadata.lookup p.id with
  | none => ""
  | some (_, customer_id, _) => customer_id

/-- Whether the proposal's id appears in the recipient's last LLM log. -/
def proposal_found (st : AuditState) (p : OrderProposal) : Bool :=
  match get_last_llm_log_for_customer st.logs (customerOf st p) with
  | none => false
  | some llm_log => check_proposal_in_log p.id llm_log

/-- The `missing_details` record appended for a proposal that is not found in
the recipient's last LLM log. -/
def detail_for (st : AuditState) (p : OrderProposal) : MissingDetail :=
  match st.proposal_metadata.lookup p.id with
  | none => { proposal_id := p.id, business_id := "", customer_id := "", reason := "" }
  | some (business_id, customer_id, _) =>
    { proposal_id := p.id, business_id := business_id, customer_id := customer_id
      reason := "Proposal ID not found in last LLM log" }

lemma audit_fold_spec (st : AuditState) :
    ∀ (ps : List OrderProposal) (r : AuditResults),
      (∀ p ∈ ps, (st.proposal_metadata.lookup p.id).isSome = true) →
      (∀ p ∈ ps,
        (get_last_llm_log_for_customer st.logs (customerOf st p)).isSome = true) →
      (ps.foldl (audit_step st) r).proposals_found
          = r.proposals_found + (ps.filter (fun p => proposal_found st p)).length
      ∧ (ps.foldl (audit_step st) r).proposals_missing
          = r.proposals_missing + (ps.filter (fun p => !proposal_found st p)).length
      ∧ (ps.foldl (audit_step st) r).missing_details
          = r.missing_details
            ++ (ps.filter (fun p => !proposal_found st p)).map (detail_for st)
  | [], r, _, _ => by simp
  | p :: ps, r, hmeta, hlogs => by
    obtain ⟨⟨business_id, customer_id, ts⟩, hl⟩ :=
      Option.isSome_iff_exists.mp (hmeta p (List.mem_cons_self p ps))
    have hcust : customerOf st p = customer_id := by
      simp only [customerOf, hl]
    obtain ⟨llm_log, hg⟩ :=
      Option.isSome_iff_exists.mp (hlogs p (List.mem_cons_self p ps))
    rw [hcust] at hg
    have hstep : audit_step st r p
        = (if check_proposal_in_log p.id llm_log then
            { r with proposals_found := r.proposals_found + 1 }
          else
            { r with
              proposals_missing := r.proposals_missing + 1
              missing_details := r.missing_details
                ++ [{ proposal_id := p.id, business_id := business_id
                      customer_id := customer_id
                      reason := "Proposal ID not found in last LLM log" }] }) := by
      simp only [audit_step, hl, hg]
    have hfound : proposal_found st p = check_proposal_in_log p.id llm_log := by
      simp only [proposal_found, hcust, hg]
    have hdet : detail_for st p
        = { proposal_id := p.id, business_id := business_id
            customer_id := customer_id
            reason := "Proposal ID not found in last LLM log" } := by
      simp only [detail_for, hl]
    have ih := audit_fold_spec st ps (audit_step st r p)
      (fun q hq => hmeta q (List.mem_cons_of_mem p hq))
      (fun q hq => hlogs q (List.mem_cons_of_mem p hq))
    rw [List.foldl_cons] at *
    by_cases hc : check_proposal_in_log p.id llm_log = true
    · rw [if_pos hc] at hstep
      refine ⟨?_, ?_, ?_⟩
      · rw [ih.1, hstep, List.filter_cons_of_pos (by rw [hfound]; exact hc)]
        simp only [List.length_cons]
        omega
      · rw [ih.2.1, hstep,
          List.filter_cons_of_neg (by rw [hfound]; simp [hc])]
      · rw [ih.2.2, hstep,
          List.filter_cons_of_neg (by rw [hfound]; simp [hc])]
    · have hcf : check_proposal_in_log p.id llm_log = false :=
        Bool.not_eq_true _ ▸ eq_false_of_ne_true hc
      rw [if_neg hc] at hstep
      refine ⟨?_, ?_, ?_⟩
      · rw [ih.1, hstep, List.filter_cons_of_neg (by rw [hfound]; exact hc)]
      · rw [ih.2.1, hstep,
          List.filter_cons_of_pos (by rw [hfound]; simp [hcf])]
        simp only [List.length_cons]
        omega
      · rw [ih.2.2, hstep,
          List.filter_cons_of_pos (by rw [hfound]; simp [hcf]),
          List.map_cons, hdet, List.append_assoc, List.singleton_append]

/-- C8: provided every audited proposal has metadata and its recipient
customer has at least one LLM log, `audit_proposals` counts under
`proposals_found` exactly the proposals whose id appears (as an exact
substring of the serialized prompt or response) in the recipient's single
most recent LLM log, counts all the others under `proposals_missing`, and
`missing_details` consists, in order, of exactly one record per not-found
proposal, carrying that proposal's id, its business and customer ids, and the
reason "Proposal ID not found in last LLM log". -/
theorem C8_audit_completeness (st : AuditState)
    (hmeta : ∀ p ∈ st.order_proposals,
      (st.proposal_metadata.lookup p.id).isSome = true)
    (hlogs : ∀ p ∈ st.order_proposals,
      (get_last_llm_log_for_customer st.logs (customerOf st p)).isSome = true) :
    (audit_proposals st).proposals_found
        = (st.order_proposals.filter (fun p => proposal_found st p)).length
    ∧ (audit_proposals st).proposals_missing
        = (st.order_proposals.filter (fun p => !proposal_found st p)).length
    ∧ (audit_proposals st).missing_details
        = (st.order_proposals.filter (fun p => !proposal_found st p)).map
            (detail_for st)
    ∧ (∀ d ∈ (audit_proposals st).missing_details,
        d.reason = "Proposal ID not found in last LLM log") := by
  obtain ⟨h1, h2, h3⟩ := audit_fold_spec st st.order_proposals
    { total_proposals := st.order_proposals.length
      proposals_found := 0
      proposals_missing := 0
      customers_without_logs := []
      missing_details := [] } hmeta hlogs
  unfold audit_proposals
  rw [h1, h2, h3]
  refine ⟨Nat.zero_add _, Nat.zero_add _, List.nil_append _, ?_⟩
  intro d hd
  rw [List.nil_append] at hd
  obtain ⟨p, hp, hdp⟩ := List.mem_map.mp hd
  have hpmem : p ∈ st.order_proposals := List.mem_of_mem_filter hp
  obtain ⟨⟨business_id, customer_id, ts⟩, hl⟩ :=
    Option.isSome_iff_exists.mp (hmeta p hpmem)
  rw [← hdp]
  simp only [detail_for, hl]

def c8Log1 : LogRow :=
  { index := 1
    agent_id := some "c1"
    log := { prompt := LLMPrompt.str "initial search", response := LLMResponse.str "ok" } }

def c8Log2 : LogRow :=
  { index := 2
    agent_id := some "c1"
    log := { prompt := LLMPrompt.messages ["choose between proposal p1 and nothing"]
             response := LLMResponse.obj "accepting p1" } }

def c8Prop1 : OrderProposal := { id := "p1", items := [], total_price := 10 }

def c8Prop2 : OrderProposal := { id := "p2", items := [], total_price := 12 }

def c8State : AuditState :=
  { order_proposals := [c8Prop1, c8Prop2]
    proposal_metadata :=
      [("p1", ("b1", "c1", "t1")), ("p2", ("b1", "c1", "t2"))]
    logs := [c8Log1, c8Log2] }

/-- C8 witness: two proposals sent to customer "c1", whose most recent LLM log
(row index 2) mentions "p1" but not "p2": the audit finds one, misses one, and
records a single missing detail for "p2" with the not-found reason. -/
theorem C8_audit_completeness_witness :
    (audit_proposals c8State).proposals_found = 1
    ∧ (audit_proposals c8State).proposals_missing = 1
    ∧ (audit_proposals c8State).missing_details
        = [{ proposal_id := "p2", business_id := "b1", customer_id := "c1"
             reason := "Proposal ID not found in last LLM log" }]
    ∧ (audit_proposals c8State).missing_details
        = (c8State.order_proposals.filter
            (fun p => !proposal_found c8State p)).map (detail_for c8State) :=
  ⟨by decide, by decide, by decide,
    (C8_audit_completeness c8State (by decide) (by decide)).2.2.1⟩

end Marketplace
